import Mathlib

/-!
# spvwallet: the waiting store and the stall supervisor

A shallow embedding of `alliance/db.go` (the bolt-backed `WaitingDB`) and of the
restart loop of `cmd/lightcli/run.go` (`startSpvClient`), with the properties
the specification states about them.

Modelling conventions.

* A byte slice is a list of bytes; a bolt bucket is a list of key/value pairs
  whose keys are strictly ascending in `bytes.Compare` order, which is the order
  a bolt cursor (and so `Bucket.ForEach`) visits them in.
* A `db.Update` whose function returns `nil` commits, and one whose function
  returns an error leaves the store as it was. The backing file is taken to be
  healthy: a commit does not fail on its own.
* The mutex of `WaitingDB` is not modelled: every operation is one atomic step.
* `btc.BtcProof` and its codec live in another repository; they are a parameter
  (`ProofCodec`).
* Go's `int64` running total wraps modulo `2^64`; `uint32` heights are natural
  numbers.
-/

namespace Spvwallet

/-! ## Bytes and their order -/

abbrev Byte := Fin 256

abbrev Bytes := List Byte

/-- The strict order of `bytes.Compare`: byte-lexicographic, a proper initial
segment first. -/
def bytesLt : Bytes → Bytes → Bool
  | [], [] => false
  | [], _ :: _ => true
  | _ :: _, [] => false
  | a :: as, b :: bs =>
    if a < b then true else if b < a then false else bytesLt as bs

/-! ## Machine integers -/

/-- Reduction of an integer to Go's `int64` range (two's complement wrap). -/
def wrapInt64 (i : Int) : Int :=
  (i + 2 ^ 63) % 2 ^ 64 - 2 ^ 63

/-- Go's `int64`. -/
def GoInt64 : Type := { i : Int // -(2 ^ 63) ≤ i ∧ i < 2 ^ 63 }

/-! ## bolt buckets -/

abbrev Entry := Bytes × Bytes

/-- The keys of a bucket page are strictly ascending. -/
def KeysAscending (l : List Entry) : Prop :=
  l.Pairwise (fun a b => bytesLt a.1 b.1 = true)

instance (l : List Entry) : Decidable (KeysAscending l) := by
  unfold KeysAscending; infer_instance

/-- Value stored under `k` in a list of entries, if any. -/
def lookupEntry (k : Bytes) : List Entry → Option Bytes
  | [] => none
  | (k0, v0) :: rest => if k0 = k then some v0 else lookupEntry k rest

/-- Insertion of `(k, v)` at its place in key order, replacing the value of an
entry that already has key `k`. -/
def insertEntry (k v : Bytes) : List Entry → List Entry
  | [] => [(k, v)]
  | (k0, v0) :: rest =>
    if bytesLt k k0 then (k, v) :: (k0, v0) :: rest
    else if bytesLt k0 k then (k0, v0) :: insertEntry k v rest
    else (k, v) :: rest

/-- Removal of the entry with key `k`. -/
def eraseEntry (k : Bytes) (l : List Entry) : List Entry :=
  l.filter (fun e => e.1 != k)

/-- A bolt bucket without nested buckets. -/
structure Bucket where
  entries : List Entry
  sorted : KeysAscending entries

/-- Errors the store's operations return. -/
inductive DBError
  | notFound
  | deserialization
  | keyRequired
  | keyTooLarge
  | valueTooLarge
  | OverSizeErr
  deriving DecidableEq, Repr

/-- Constant `bolt.MaxKeySize`. -/
def MaxKeySize : Nat := 32768

/-- Constant `bolt.MaxValueSize`. -/
def MaxValueSize : Nat := 2 ^ 31 - 2

/-! ### Order lemmas the bucket operations rest on -/

theorem bytesLt_irrefl (a : Bytes) : bytesLt a a = false := by
  induction a with
  | nil => rfl
  | cons x xs ih => simp [bytesLt, ih]

theorem bytesLt_trichotomy :
    ∀ a b : Bytes, bytesLt a b = false → bytesLt b a = false → a = b
  | [], [], _, _ => rfl
  | [], _ :: _, h, _ => by simp [bytesLt] at h
  | _ :: _, [], _, h => by simp [bytesLt] at h
  | x :: xs, y :: ys, h1, h2 => by
    by_cases hxy : x < y
    · simp [bytesLt, hxy] at h1
    · by_cases hyx : y < x
      · simp [bytesLt, hyx] at h2
      · have hx : x = y := le_antisymm (not_lt.mp hyx) (not_lt.mp hxy)
        simp [bytesLt, hxy, hyx] at h1 h2
        rw [hx, bytesLt_trichotomy xs ys h1 h2]

theorem bytesLt_trans :
    ∀ a b c : Bytes, bytesLt a b = true → bytesLt b c = true → bytesLt a c = true
  | [], [], _, h, _ => by simp [bytesLt] at h
  | [], _ :: _, [], _, h => by simp [bytesLt] at h
  | [], _ :: _, _ :: _, _, _ => by simp [bytesLt]
  | _ :: _, [], _, h, _ => by simp [bytesLt] at h
  | _ :: _, _ :: _, [], _, h => by simp [bytesLt] at h
  | x :: xs, y :: ys, z :: zs, h1, h2 => by
    by_cases hxy : x < y
    · by_cases hyz : y < z
      · simp [bytesLt, lt_trans hxy hyz]
      · by_cases hzy : z < y
        · simp [bytesLt, hyz, hzy] at h2
        · have hy : y = z := le_antisymm (not_lt.mp hzy) (not_lt.mp hyz)
          subst hy
          simp [bytesLt, hxy]
    · by_cases hyx : y < x
      · simp [bytesLt, hxy, hyx] at h1
      · have hx : x = y := le_antisymm (not_lt.mp hyx) (not_lt.mp hxy)
        subst hx
        simp only [bytesLt, hxy, if_false] at h1
        by_cases hxz : x < z
        · simp [bytesLt, hxz]
        · by_cases hzx : z < x
          · simp [bytesLt, hxz, hzx] at h2
          · simp only [bytesLt, hxz, hzx, if_false] at h2 ⊢
            exact bytesLt_trans xs ys zs h1 h2

theorem bytesLt_ne {a b : Bytes} (h : bytesLt a b = true) : a ≠ b := by
  intro hab
  subst hab
  rw [bytesLt_irrefl] at h
  exact Bool.noConfusion h

theorem mem_insertEntry {k v : Bytes} {l : List Entry} {e : Entry}
    (h : e ∈ insertEntry k v l) : e = (k, v) ∨ e ∈ l := by
  induction l with
  | nil => simpa [insertEntry] using h
  | cons hd tl ih =>
    obtain ⟨k0, v0⟩ := hd
    unfold insertEntry at h
    split_ifs at h with h1 h2
    · rcases List.mem_cons.mp h with h | h
      · exact Or.inl h
      · exact Or.inr h
    · rcases List.mem_cons.mp h with h | h
      · exact Or.inr (h ▸ List.mem_cons_self _ _)
      · rcases ih h with h | h
        · exact Or.inl h
        · exact Or.inr (List.mem_cons_of_mem _ h)
    · rcases List.mem_cons.mp h with h | h
      · exact Or.inl h
      · exact Or.inr (List.mem_cons_of_mem _ h)

theorem keysAscending_insertEntry (k v : Bytes) {l : List Entry}
    (hl : KeysAscending l) : KeysAscending (insertEntry k v l) := by
  unfold KeysAscending at hl ⊢
  induction l with
  | nil => simp [insertEntry]
  | cons hd tl ih =>
    obtain ⟨k0, v0⟩ := hd
    have htl := (List.pairwise_cons.mp hl).2
    have hhd := (List.pairwise_cons.mp hl).1
    unfold insertEntry
    split_ifs with h1 h2
    · refine List.pairwise_cons.mpr ⟨?_, hl⟩
      intro e he
      rcases List.mem_cons.mp he with he | he
      · rw [he]; exact h1
      · exact bytesLt_trans _ _ _ h1 (hhd e he)
    · refine List.pairwise_cons.mpr ⟨?_, ih htl⟩
      intro e he
      rcases mem_insertEntry he with he | he
      · rw [he]; exact h2
      · exact hhd e he
    · have hk : k = k0 :=
        bytesLt_trichotomy k k0 (by simpa using h1) (by simpa using h2)
      refine List.pairwise_cons.mpr ⟨?_, htl⟩
      intro e he
      rw [hk]
      exact hhd e he

theorem keysAscending_eraseEntry (k : Bytes) {l : List Entry}
    (hl : KeysAscending l) : KeysAscending (eraseEntry k l) :=
  List.Pairwise.sublist (List.filter_sublist l) hl

/-! ### Bucket operations -/

namespace Bucket

/-- The empty bucket `CreateBucketIfNotExists` makes in a fresh file. -/
def empty : Bucket := ⟨[], List.Pairwise.nil⟩

/-- Method `Bucket.Get`: the value under `key`, `none` (Go `nil`) when the key
is absent. A stored value of length zero is still a value. -/
def Get (b : Bucket) (key : Bytes) : Option Bytes :=
  lookupEntry key b.entries

/-- Method `Bucket.Put`: rejects an empty key, a key longer than `MaxKeySize`
and a value longer than `MaxValueSize`; otherwise sets the value of `key`. -/
def Put (b : Bucket) (key value : Bytes) : Except DBError Bucket :=
  if key.length = 0 then .error .keyRequired
  else if key.length > MaxKeySize then .error .keyTooLarge
  else if value.length > MaxValueSize then .error .valueTooLarge
  else .ok ⟨insertEntry key value b.entries, keysAscending_insertEntry key value b.sorted⟩

/-- Method `Bucket.Delete`: removes `key` when present and is a no-op
otherwise. Its error cases (closed or read-only transaction, nested bucket
under the key) do not arise in a writable transaction on a flat bucket, so the
result is the bucket. -/
def Delete (b : Bucket) (key : Bytes) : Bucket :=
  ⟨eraseEntry key b.entries, keysAscending_eraseEntry key b.sorted⟩

/-- Method `Bucket.ForEach`: calls `fn` on each entry in key order, threading
the captured variables `s`, and stops at the first error `fn` returns. -/
def ForEach {σ ε : Type} (fn : σ → Bytes → Bytes → σ × Option ε) :
    List Entry → σ → σ × Option ε
  | [], s => (s, none)
  | (k, v) :: rest, s =>
    match fn s k v with
    | (s1, some e) => (s1, some e)
    | (s1, none) => ForEach fn rest s1

end Bucket

instance : DecidableEq Bucket := fun a b =>
  decidable_of_iff (a.entries = b.entries)
    ⟨fun h => by cases a; cases b; cases h; rfl, fun h => by rw [h]⟩

/-! ## The waiting store (`alliance/db.go`) -/

/-- The proof record `btc.BtcProof` as the store uses it: its `Height` field and
its binary codec. `Deserialization` is `none` when the codec reports an error. -/
structure ProofCodec (P : Type) where
  Height : P → Nat
  Serialization : P → Bytes
  Deserialization : Bytes → Option P

/-- The key `KEYHeight`, the bytes of "last". -/
def KEYHeight : Bytes := [108, 97, 115, 116]

/-- The bolt file: the three buckets `NewWaitingDB` creates, named after the
variables that hold their names. -/
structure BoltDB where
  BKTWaiting : Bucket
  BKTVoted : Bucket
  BKTHeight : Bucket
  deriving DecidableEq

/-- The store handle. -/
structure WaitingDB where
  db : BoltDB
  maxReadSize : GoInt64

/-- Function `binary.LittleEndian.PutUint32` on a fresh 4-byte slice. -/
def putUint32 (v : Nat) : Bytes :=
  [Fin.ofNat (v % 256), Fin.ofNat (v / 2 ^ 8 % 256),
   Fin.ofNat (v / 2 ^ 16 % 256), Fin.ofNat (v / 2 ^ 24 % 256)]

/-- Function `binary.LittleEndian.Uint32`: reads the first four bytes; `none`
is the index-out-of-range panic on a shorter slice. -/
def uint32 : Bytes → Option Nat
  | b0 :: b1 :: b2 :: b3 :: _ =>
    some (b0.val + b1.val * 2 ^ 8 + b2.val * 2 ^ 16 + b3.val * 2 ^ 24)
  | _ => none

/-- Variables the scan closure of `GetUnderHeightAndDelete` captures. -/
structure ScanVars (P : Type) where
  arr : List P
  keys : List Bytes
  total : Int

/-- The closure `GetUnderHeightAndDelete` passes to `ForEach`. -/
def scanEntry {P : Type} (c : ProofCodec P) (maxReadSize : Int) (height : Nat)
    (s : ScanVars P) (k v : Bytes) : ScanVars P × Option DBError :=
  match c.Deserialization v with
  | none => (s, some .deserialization)
  | some p =>
    if c.Height p ≤ height then
      let total := wrapInt64 (s.total + (k.length : Int))
      let s1 : ScanVars P := ⟨s.arr ++ [p], s.keys ++ [k], total⟩
      if total > maxReadSize then (s1, some .OverSizeErr) else (s1, none)
    else (s, none)

namespace WaitingDB

/-- Function `NewWaitingDB` on a file that does not exist yet. -/
def NewWaitingDB (maxReadSize : GoInt64) : WaitingDB :=
  ⟨⟨Bucket.empty, Bucket.empty, Bucket.empty⟩, maxReadSize⟩

/-- Method `SetHeight`. -/
def SetHeight (w : WaitingDB) (height : Nat) : Except DBError Unit × WaitingDB :=
  let val := putUint32 height
  match w.db.BKTHeight.Put KEYHeight val with
  | .error e => (.error e, w)
  | .ok b => (.ok (), { w with db := { w.db with BKTHeight := b } })

/-- Method `GetHeight`; `none` is a panic of `Uint32`. -/
def GetHeight (w : WaitingDB) : Option Nat :=
  match w.db.BKTHeight.Get KEYHeight with
  | none => some 0
  | some val => uint32 val

/-- Method `Put`. -/
def Put {P : Type} (c : ProofCodec P) (w : WaitingDB) (txid : Bytes) (item : P) :
    Except DBError Unit × WaitingDB :=
  let val := c.Serialization item
  match w.db.BKTWaiting.Put txid val with
  | .error e => (.error e, w)
  | .ok b => (.ok (), { w with db := { w.db with BKTWaiting := b } })

/-- Method `Get`. -/
def Get {P : Type} (c : ProofCodec P) (w : WaitingDB) (txid : Bytes) : Except DBError P :=
  match w.db.BKTWaiting.Get txid with
  | none => .error .notFound
  | some val =>
    match c.Deserialization val with
    | none => .error .deserialization
    | some p => .ok p

/-- Method `GetUnderHeightAndDelete`. -/
def GetUnderHeightAndDelete {P : Type} (c : ProofCodec P) (w : WaitingDB) (height : Nat) :
    Except DBError (List P × List Bytes) × WaitingDB :=
  let bw := w.db.BKTWaiting
  let deleteKeys (s : ScanVars P) : Except DBError (List P × List Bytes) × WaitingDB :=
    (.ok (s.arr, s.keys),
      { w with db := { w.db with BKTWaiting := s.keys.foldl Bucket.Delete bw } })
  match Bucket.ForEach (scanEntry c w.maxReadSize.val height) bw.entries ⟨[], [], 0⟩ with
  | (s, some .OverSizeErr) => deleteKeys s
  | (_, some e) => (.error e, w)
  | (s, none) => deleteKeys s

/-- Method `MarkVotedTx`. -/
def MarkVotedTx (w : WaitingDB) (txid : Bytes) : Except DBError Unit × WaitingDB :=
  match w.db.BKTVoted.Put txid [1] with
  | .error e => (.error e, w)
  | .ok b => (.ok (), { w with db := { w.db with BKTVoted := b } })

/-- Method `CheckIfVoted`. -/
def CheckIfVoted (w : WaitingDB) (txid : Bytes) : Bool :=
  (w.db.BKTVoted.Get txid).isSome

/-- Method `CheckIfWaiting`. -/
def CheckIfWaiting (w : WaitingDB) (txid : Bytes) : Bool :=
  (w.db.BKTWaiting.Get txid).isSome

/-- Method `DelIfExist`. -/
def DelIfExist (w : WaitingDB) (txid : Bytes) : Bool × WaitingDB :=
  match w.db.BKTWaiting.Get txid with
  | some _ => (true, { w with db := { w.db with BKTWaiting := w.db.BKTWaiting.Delete txid } })
  | none => (false, w)

end WaitingDB

/-- One call on the store, with its arguments. -/
inductive StoreOp (P : Type) where
  | Put (txid : Bytes) (item : P)
  | Get (txid : Bytes)
  | DelIfExist (txid : Bytes)
  | GetUnderHeightAndDelete (height : Nat)
  | SetHeight (height : Nat)
  | GetHeight
  | MarkVotedTx (txid : Bytes)
  | CheckIfVoted (txid : Bytes)
  | CheckIfWaiting (txid : Bytes)

/-- The store after one call. -/
def StoreOp.apply {P : Type} (c : ProofCodec P) (w : WaitingDB) : StoreOp P → WaitingDB
  | .Put txid item => (w.Put c txid item).2
  | .Get _ => w
  | .DelIfExist txid => (w.DelIfExist txid).2
  | .GetUnderHeightAndDelete height => (w.GetUnderHeightAndDelete c height).2
  | .SetHeight height => (w.SetHeight height).2
  | .GetHeight => w
  | .MarkVotedTx txid => (w.MarkVotedTx txid).2
  | .CheckIfVoted _ => w
  | .CheckIfWaiting _ => w

/-- Whether a call is a `SetHeight`. -/
def StoreOp.isSetHeight {P : Type} : StoreOp P → Bool
  | .SetHeight _ => true
  | _ => false

/-- The store after a finite sequence of calls. -/
def applyOps {P : Type} (c : ProofCodec P) (w : WaitingDB) (ops : List (StoreOp P)) : WaitingDB :=
  ops.foldl (StoreOp.apply c) w

/-! ## The stall supervisor (`cmd/lightcli/run.go`) -/

/-- What `Blockchain.BestBlock()` returns on success, as far as the loop reads
it: `sh.Height` and `sh.Header.Timestamp` (in nanoseconds). -/
structure StoredHeader where
  Height : Nat
  Timestamp : Int
  deriving DecidableEq, Repr

/-- A call the loop makes on the wallet. -/
inductive Call
  | ReSync
  | Rollback (t : Int)
  deriving DecidableEq, Repr

/-- What the wallet answers during one pass of the loop: the result of
`BestBlock()` (`none` is an error) and whether `Rollback` returns a nil error. -/
structure Tick where
  BestBlock : Option StoredHeader
  RollbackOk : Bool
  deriving DecidableEq, Repr

/-- The loop variables. `timer` is the duration the timer is armed with, `none`
once it has fired and has not been reset. -/
structure LoopState where
  lasth : Nat
  again : Bool
  timer : Option Int
  deriving DecidableEq, Repr

/-- Six hours in nanoseconds, `6 * time.Hour`. -/
def sixHours : Int := 6 * 3600 * 1000000000

/-- One pass of the `for` loop of `startSpvClient`, taken when the timer fires:
the new loop variables and the calls made, in order. `log.Fatalf` and the other
log calls write a record and return (where the function means to stop it calls
`os.Exit` itself), so a `continue` is reached and skips the rest of the pass,
the `timer.Reset` and the update of `lasth` included. -/
def loopBody (td : Int) (st : LoopState) (env : Tick) : LoopState × List Call :=
  match env.BestBlock with
  | none => ({ st with timer := none }, [])
  | some sh =>
    if st.lasth ≥ sh.Height then
      if st.again then
        if env.RollbackOk then
          ({ lasth := sh.Height, again := false, timer := some (Int.tdiv td 2) },
            [Call.Rollback (sh.Timestamp - sixHours), Call.ReSync])
        else
          ({ st with timer := none }, [Call.Rollback (sh.Timestamp - sixHours)])
      else
        ({ lasth := sh.Height, again := true, timer := some (Int.tdiv td 2) }, [Call.ReSync])
    else
      ({ lasth := sh.Height, again := false, timer := some td }, [])

/-- The loop over the wallet's answers: a pass is taken only while the timer is
armed (otherwise `<-timer.C` blocks for good). The result lists, for each pass
taken, the loop variables after it and its calls. -/
def runLoop (td : Int) : LoopState → List Tick → List (LoopState × List Call)
  | _, [] => []
  | st, env :: rest =>
    match st.timer with
    | none => []
    | some _ =>
      let r := loopBody td st env
      r :: runLoop td r.1 rest

/-- The restart branch of `startSpvClient` after a first successful
`BestBlock()` returned `sh`: `minutes` is the `RestartDuration` flag. -/
def startSpvClient (minutes : Int) (sh : StoredHeader) (ticks : List Tick) :
    List (LoopState × List Call) :=
  let td := wrapInt64 (minutes * 60000000000)
  runLoop td { lasth := sh.Height, again := false, timer := some td } ticks

/-- A pass on which `BestBlock` and `Rollback` succeed, sampling height `h`. -/
def okTick (h : Nat) (ts : Int) : Tick := ⟨some ⟨h, ts⟩, true⟩

/-- The passes on which `BestBlock` returns the given samples and `Rollback`
succeeds. -/
def okTicks (samples : List StoredHeader) : List Tick :=
  samples.map (fun s => ⟨some s, true⟩)

/-- Samples of a stall that lasts three ticks after a first sample of 10, then
an advance. -/
def stallSamples : List StoredHeader :=
  [⟨10, 1⟩, ⟨10, 2⟩, ⟨10, 3⟩, ⟨12, 4⟩]

/-- A pass together with the wall-clock time at which its timer fired. The loop
has no `time.Now()`: the time of the tick is not an input of `loopBody`, which
reads the answers `env` only. -/
structure TimedTick where
  now : Int
  env : Tick
  deriving DecidableEq, Repr

/-- A tick taken two hours after the timestamp of the best header it samples
(height 10, timestamp 0), with `Rollback` succeeding. -/
def lateTick : TimedTick := ⟨7200000000000, ⟨some ⟨10, 0⟩, true⟩⟩

/-- Samples of a tip that drops to 8 after the rollback of a stall at 10 and
then climbs to 9. -/
def dropSamples : List StoredHeader :=
  [⟨10, 1⟩, ⟨10, 2⟩, ⟨8, 3⟩, ⟨9, 4⟩]

/-- Whether a pass called `Rollback`. -/
def calledRollback (calls : List Call) : Bool :=
  calls.any (fun c => match c with
    | .Rollback _ => true
    | .ReSync => false)

/-- Number of `ReSync` calls of a pass. -/
def countReSync (calls : List Call) : Nat :=
  calls.count Call.ReSync

/-- Number of `Rollback` calls of a pass. -/
def countRollback (calls : List Call) : Nat :=
  (calls.filter (fun c => match c with
    | .Rollback _ => true
    | .ReSync => false)).length

/-- A small concrete codec: the first byte is the height, the rest the payload. -/
def byteCodec : ProofCodec (Byte × Bytes) where
  Height := fun p => p.1.val
  Serialization := fun p => p.1 :: p.2
  Deserialization := fun
    | [] => none
    | b :: rest => some (b, rest)

/-! ## Vocabulary of the statements -/

/-- Whether a stored entry deserializes to a proof of height at most `h`. -/
def qualifies {P : Type} (c : ProofCodec P) (h : Nat) (e : Entry) : Bool :=
  match c.Deserialization e.2 with
  | some p => decide (c.Height p ≤ h)
  | none => false

/-- The entries of height at most `h`, in key order. -/
def qualifying {P : Type} (c : ProofCodec P) (h : Nat) (l : List Entry) : List Entry :=
  l.filter (qualifies c h)

/-- The proofs stored in a list of entries. -/
def proofsOf {P : Type} (c : ProofCodec P) (l : List Entry) : List P :=
  l.filterMap (fun e => c.Deserialization e.2)

/-- The keys of a list of entries. -/
def keysOf (l : List Entry) : List Bytes :=
  l.map Prod.fst

/-- Summed length of a list of keys. -/
def sumKeyLen (keys : List Bytes) : Nat :=
  (keys.map List.length).sum

/-- Whether every entry deserializes. -/
def allDeserialize {P : Type} (c : ProofCodec P) (l : List Entry) : Prop :=
  ∀ e ∈ l, (c.Deserialization e.2).isSome = true

/-- Where a scan over qualifying keys `ks` stops when it starts from the running
total `t`: the number of keys collected, and whether the budget was exceeded. -/
def budgetCut (maxReadSize : Int) : Int → List Bytes → Nat × Bool
  | _, [] => (0, false)
  | t, k :: ks =>
    let t1 := wrapInt64 (t + (k.length : Int))
    if t1 > maxReadSize then (1, true)
    else ((budgetCut maxReadSize t1 ks).1 + 1, (budgetCut maxReadSize t1 ks).2)

instance {P : Type} (c : ProofCodec P) (l : List Entry) : Decidable (allDeserialize c l) := by
  unfold allDeserialize; infer_instance

/-- A store holding proof A of height 100 under key 1 and proof B of height 200
under key 2, with a budget of 100 bytes. -/
def storeAB : WaitingDB :=
  ⟨⟨⟨[([1], [100, 7]), ([2], [200, 8])], by decide⟩, Bucket.empty, Bucket.empty⟩,
    ⟨100, by decide⟩⟩

/-- A store with one qualifying entry whose key is two bytes long and a budget
of one byte. -/
def storeSmallBudget : WaitingDB :=
  ⟨⟨⟨[([1, 2], [0])], by decide⟩, Bucket.empty, Bucket.empty⟩, ⟨1, by decide⟩⟩

/-- A store with three qualifying entries under one-byte keys and a budget of
one byte. -/
def storeThree : WaitingDB :=
  ⟨⟨⟨[([1], [0]), ([2], [0]), ([3], [0])], by decide⟩, Bucket.empty, Bucket.empty⟩,
    ⟨1, by decide⟩⟩

/-- The entries one `GetUnderHeightAndDelete(h)` call collects when no entry
fails to deserialize on the way: the qualifying entries up to the budget cut. -/
def reclaimed {P : Type} (c : ProofCodec P) (w : WaitingDB) (h : Nat) : List Entry :=
  (qualifying c h w.db.BKTWaiting.entries).take
    (budgetCut w.maxReadSize.val 0 (keysOf (qualifying c h w.db.BKTWaiting.entries))).1

/-- A store with one waiting entry under the key 1,2,3, one voted key and a
budget of 100 bytes. -/
def sampleDB : WaitingDB :=
  ⟨⟨⟨[([1, 2, 3], [5, 5])], by decide⟩, ⟨[([9], [1])], by decide⟩, Bucket.empty⟩,
    ⟨100, by decide⟩⟩

/-! ## Lemmas on bucket contents -/

theorem lookupEntry_insertEntry_self (k v : Bytes) (l : List Entry) :
    lookupEntry k (insertEntry k v l) = some v := by
  induction l with
  | nil => simp [insertEntry, lookupEntry]
  | cons hd tl ih =>
    obtain ⟨k0, v0⟩ := hd
    unfold insertEntry
    split_ifs with h1 h2
    · simp [lookupEntry]
    · have hne : k0 ≠ k := bytesLt_ne h2
      simp [lookupEntry, hne, ih]
    · simp [lookupEntry]

theorem lookupEntry_insertEntry_ne {k k1 : Bytes} (v : Bytes) (l : List Entry) (h : k1 ≠ k) :
    lookupEntry k1 (insertEntry k v l) = lookupEntry k1 l := by
  induction l with
  | nil => simp [insertEntry, lookupEntry, Ne.symm h]
  | cons hd tl ih =>
    obtain ⟨k0, v0⟩ := hd
    unfold insertEntry
    split_ifs with h1 h2
    · simp [lookupEntry, Ne.symm h]
    · simp [lookupEntry, ih]
    · have hk : k = k0 :=
        bytesLt_trichotomy k k0 (by simpa using h1) (by simpa using h2)
      subst hk
      simp [lookupEntry, Ne.symm h]

theorem lookupEntry_eraseEntry_self (k : Bytes) (l : List Entry) :
    lookupEntry k (eraseEntry k l) = none := by
  induction l with
  | nil => rfl
  | cons hd tl ih =>
    obtain ⟨k0, v0⟩ := hd
    unfold eraseEntry at ih ⊢
    by_cases h : k0 = k
    · simp [List.filter_cons, h, ih]
    · simp [List.filter_cons, h, lookupEntry, ih]

theorem lookupEntry_eraseEntry_ne {k k1 : Bytes} (l : List Entry) (h : k1 ≠ k) :
    lookupEntry k1 (eraseEntry k l) = lookupEntry k1 l := by
  induction l with
  | nil => rfl
  | cons hd tl ih =>
    obtain ⟨k0, v0⟩ := hd
    unfold eraseEntry at ih ⊢
    by_cases h0 : k0 = k
    · subst h0
      simp [List.filter_cons, lookupEntry, Ne.symm h, ih]
    · by_cases h1 : k0 = k1
      · subst h1
        simp [List.filter_cons, h0, lookupEntry]
      · simp [List.filter_cons, h0, lookupEntry, h1, ih]

theorem lookupEntry_isSome_iff (k : Bytes) (l : List Entry) :
    (lookupEntry k l).isSome = true ↔ ∃ e ∈ l, e.1 = k := by
  induction l with
  | nil => simp [lookupEntry]
  | cons hd tl ih =>
    obtain ⟨k0, v0⟩ := hd
    by_cases h : k0 = k
    · simp [lookupEntry, h]
    · simp [lookupEntry, h, ih]

theorem insertEntry_idem (k v : Bytes) (l : List Entry) :
    insertEntry k v (insertEntry k v l) = insertEntry k v l := by
  induction l with
  | nil => simp [insertEntry, bytesLt_irrefl]
  | cons hd tl ih =>
    obtain ⟨k0, v0⟩ := hd
    by_cases h1 : bytesLt k k0 = true
    · simp [insertEntry, h1, bytesLt_irrefl]
    · by_cases h2 : bytesLt k0 k = true
      · simp [insertEntry, h1, h2, ih]
      · simp [insertEntry, h1, h2, bytesLt_irrefl]

theorem Bucket.ext_entries {a b : Bucket} (h : a.entries = b.entries) : a = b := by
  cases a; cases b; cases h; rfl

/-- A bolt `Put` either fails, leaving nothing written, or yields the bucket
with the pair inserted. -/
theorem Bucket.Put_cases (b : Bucket) (k v : Bytes) :
    (∃ e, b.Put k v = .error e) ∨
    b.Put k v = .ok ⟨insertEntry k v b.entries, keysAscending_insertEntry k v b.sorted⟩ := by
  unfold Bucket.Put
  split_ifs
  · exact Or.inl ⟨_, rfl⟩
  · exact Or.inl ⟨_, rfl⟩
  · exact Or.inl ⟨_, rfl⟩
  · exact Or.inr rfl

/-- An entry of an ascending list is the one its key looks up. -/
theorem lookupEntry_of_mem {l : List Entry} (hl : KeysAscending l) {e : Entry} (he : e ∈ l) :
    lookupEntry e.1 l = some e.2 := by
  unfold KeysAscending at hl
  induction l with
  | nil => cases he
  | cons hd tl ih =>
    obtain ⟨k0, v0⟩ := hd
    rcases List.mem_cons.mp he with h | h
    · subst h; simp [lookupEntry]
    · have hlt := (List.pairwise_cons.mp hl).1 e h
      have hne : k0 ≠ e.1 := bytesLt_ne hlt
      simp [lookupEntry, hne, ih (List.pairwise_cons.mp hl).2 h]

/-! ## Lemmas on the reclaim scan -/

theorem budgetCut_le (M : Int) : ∀ (ks : List Bytes) (t : Int), (budgetCut M t ks).1 ≤ ks.length
  | [], _ => by simp [budgetCut]
  | k :: ks, t => by
    simp only [budgetCut]
    split_ifs
    · simp
    · simpa using budgetCut_le M ks _

theorem budgetCut_pos (M t : Int) (k : Bytes) (ks : List Bytes) :
    0 < (budgetCut M t (k :: ks)).1 := by
  simp only [budgetCut]
  split_ifs <;> simp

theorem budgetCut_not_tripped (M : Int) :
    ∀ (ks : List Bytes) (t : Int), (budgetCut M t ks).2 = false → (budgetCut M t ks).1 = ks.length
  | [], _, _ => by simp [budgetCut]
  | k :: ks, t, h => by
    simp only [budgetCut] at h ⊢
    split_ifs at h ⊢ with h1
    simpa using budgetCut_not_tripped M ks _ h

theorem qualifying_cons_of_true {P : Type} (c : ProofCodec P) (h : Nat) (e : Entry)
    (l : List Entry) (he : qualifies c h e = true) :
    qualifying c h (e :: l) = e :: qualifying c h l := by
  simp [qualifying, List.filter_cons, he]

theorem qualifying_cons_of_false {P : Type} (c : ProofCodec P) (h : Nat) (e : Entry)
    (l : List Entry) (he : qualifies c h e = false) :
    qualifying c h (e :: l) = qualifying c h l := by
  simp [qualifying, List.filter_cons, he]

/-- The scan either meets an entry that does not deserialize, or collects the
qualifying entries up to the point `budgetCut` gives. -/
theorem forEach_scanEntry {P : Type} (c : ProofCodec P) (M : Int) (h : Nat) :
    ∀ (l : List Entry) (s : ScanVars P),
      ((Bucket.ForEach (scanEntry c M h) l s).2 = some .deserialization ∧
        ∃ e ∈ l, c.Deserialization e.2 = none) ∨
      ((Bucket.ForEach (scanEntry c M h) l s).1.arr =
          s.arr ++ proofsOf c
            ((qualifying c h l).take (budgetCut M s.total (keysOf (qualifying c h l))).1) ∧
       (Bucket.ForEach (scanEntry c M h) l s).1.keys =
          s.keys ++ keysOf
            ((qualifying c h l).take (budgetCut M s.total (keysOf (qualifying c h l))).1) ∧
       (Bucket.ForEach (scanEntry c M h) l s).2 =
          if (budgetCut M s.total (keysOf (qualifying c h l))).2 then some .OverSizeErr
          else none)
  | [], s => by
    right
    simp [Bucket.ForEach, qualifying, keysOf, budgetCut, proofsOf]
  | (k, v) :: tl, s => by
    cases hd : c.Deserialization v with
    | none =>
      left
      refine ⟨?_, (k, v), List.mem_cons_self _ _, hd⟩
      simp [Bucket.ForEach, scanEntry, hd]
    | some p =>
      by_cases hq : c.Height p ≤ h
      · have hqual : qualifies c h (k, v) = true := by simp [qualifies, hd, hq]
        rw [qualifying_cons_of_true c h _ _ hqual]
        by_cases htrip : wrapInt64 (s.total + (k.length : Int)) > M
        · right
          simp [Bucket.ForEach, scanEntry, hd, hq, htrip, keysOf, budgetCut, proofsOf]
        · rcases forEach_scanEntry c M h tl
            ⟨s.arr ++ [p], s.keys ++ [k], wrapInt64 (s.total + (k.length : Int))⟩ with ih | ih
          · left
            obtain ⟨h1, e, he, hnone⟩ := ih
            refine ⟨?_, e, List.mem_cons_of_mem _ he, hnone⟩
            simpa [Bucket.ForEach, scanEntry, hd, hq, htrip] using h1
          · right
            obtain ⟨h1, h2, h3⟩ := ih
            simp only [Bucket.ForEach, scanEntry, hd, hq, htrip, if_true, if_false]
            simp only [keysOf, List.map_cons, budgetCut, htrip, if_false, List.take_succ_cons]
            simp only [keysOf] at h1 h2 h3
            refine ⟨?_, ?_, ?_⟩
            · rw [h1]; simp [proofsOf, hd]
            · rw [h2]; simp
            · rw [h3]
      · have hqual : qualifies c h (k, v) = false := by simp [qualifies, hd, hq]
        rw [qualifying_cons_of_false c h _ _ hqual]
        rcases forEach_scanEntry c M h tl s with ih | ih
        · left
          obtain ⟨h1, e, he, hnone⟩ := ih
          refine ⟨?_, e, List.mem_cons_of_mem _ he, hnone⟩
          simpa [Bucket.ForEach, scanEntry, hd, hq] using h1
        · right
          simpa [Bucket.ForEach, scanEntry, hd, hq] using ih

/-- Deleting a list of keys one by one keeps exactly the entries whose key is
not in the list. -/
theorem foldl_Delete_entries (keys : List Bytes) (b : Bucket) :
    (keys.foldl Bucket.Delete b).entries =
      b.entries.filter (fun e => decide (e.1 ∉ keys)) := by
  induction keys generalizing b with
  | nil => simp
  | cons k ks ih =>
    rw [List.foldl_cons, ih]
    simp only [Bucket.Delete, eraseEntry, List.filter_filter]
    apply List.filter_congr
    intro e _
    by_cases h1 : e.1 = k <;> by_cases h2 : e.1 ∈ ks <;> simp [h1, h2]

/-- Two entries of an ascending list with the same key are the same entry. -/
theorem entry_eq_of_key_eq {l : List Entry} (hl : KeysAscending l) {e1 e2 : Entry}
    (h1 : e1 ∈ l) (h2 : e2 ∈ l) (hk : e1.1 = e2.1) : e1 = e2 := by
  have a := lookupEntry_of_mem hl h1
  have b := lookupEntry_of_mem hl h2
  rw [hk, b] at a
  exact Prod.ext hk (Option.some.inj a).symm

theorem wrapInt64_of_range {i : Int} (h1 : -(2 ^ 63) ≤ i) (h2 : i < 2 ^ 63) :
    wrapInt64 i = i := by
  unfold wrapInt64
  omega

/-- While the running total stays within the budget, every key is collected. -/
theorem budgetCut_within (M : Int) (hM : M < 2 ^ 63) :
    ∀ (ks : List Bytes) (t : Int), 0 ≤ t → t + (sumKeyLen ks : Int) ≤ M →
      budgetCut M t ks = (ks.length, false)
  | [], _, _, _ => by simp [budgetCut]
  | k :: ks, t, ht, hle => by
    have hsum : (sumKeyLen (k :: ks) : Int) = (k.length : Int) + (sumKeyLen ks : Int) := by
      simp [sumKeyLen]
    rw [hsum] at hle
    have hks : (0 : Int) ≤ (sumKeyLen ks : Int) := Int.natCast_nonneg _
    have hk : (0 : Int) ≤ (k.length : Int) := Int.natCast_nonneg _
    have hw : wrapInt64 (t + (k.length : Int)) = t + (k.length : Int) :=
      wrapInt64_of_range (by omega) (by omega)
    have ih := budgetCut_within M hM ks (t + (k.length : Int)) (by omega) (by omega)
    have hnt : ¬ (t + (k.length : Int) > M) := by omega
    simp [budgetCut, hw, hnt, ih]

/-- Outcome of `GetUnderHeightAndDelete`: an error that leaves the store as it
was when an entry does not deserialize before the scan stops, and otherwise the
qualifying entries up to the point `budgetCut` gives, which are deleted. -/
theorem GetUnderHeightAndDelete_outcome {P : Type} (c : ProofCodec P) (w : WaitingDB) (h : Nat) :
    (w.GetUnderHeightAndDelete c h = (.error .deserialization, w) ∧
      ∃ e ∈ w.db.BKTWaiting.entries, c.Deserialization e.2 = none) ∨
    w.GetUnderHeightAndDelete c h =
      (.ok (proofsOf c (reclaimed c w h), keysOf (reclaimed c w h)),
        ⟨⟨(keysOf (reclaimed c w h)).foldl Bucket.Delete w.db.BKTWaiting,
          w.db.BKTVoted, w.db.BKTHeight⟩, w.maxReadSize⟩) := by
  have hs := forEach_scanEntry c w.maxReadSize.val h w.db.BKTWaiting.entries ⟨[], [], 0⟩
  dsimp only [WaitingDB.GetUnderHeightAndDelete, reclaimed]
  generalize Bucket.ForEach (scanEntry c w.maxReadSize.val h) w.db.BKTWaiting.entries
    ⟨[], [], 0⟩ = r at hs ⊢
  obtain ⟨s, err⟩ := r
  rcases hs with ⟨h1, he⟩ | ⟨h1, h2, h3⟩
  · left
    simp only at h1
    subst h1
    exact ⟨rfl, he⟩
  · right
    simp only [List.nil_append] at h1 h2 h3
    by_cases ht : (budgetCut w.maxReadSize.val 0
        (keysOf (qualifying c h w.db.BKTWaiting.entries))).2 = true
    · simp only [ht, if_true] at h3
      subst h3
      simp only [h1, h2]
    · simp only [ht] at h3
      subst h3
      simp [h1, h2]

theorem mem_keysOf_qualifying_iff {P : Type} (c : ProofCodec P) (h : Nat) {l : List Entry}
    (hl : KeysAscending l) {e : Entry} (he : e ∈ l) :
    e.1 ∈ keysOf (qualifying c h l) ↔ qualifies c h e = true := by
  constructor
  · intro hm
    obtain ⟨e1, he1, hk⟩ := List.mem_map.mp hm
    have hmem := List.mem_filter.mp he1
    have : e1 = e := entry_eq_of_key_eq hl hmem.1 he hk
    rw [← this]
    exact hmem.2
  · intro hq
    exact List.mem_map.mpr ⟨e, List.mem_filter.mpr ⟨he, hq⟩, rfl⟩

theorem proofsOf_map_some {P : Type} (c : ProofCodec P) :
    ∀ l : List Entry, allDeserialize c l →
      (proofsOf c l).map some = l.map (fun e => c.Deserialization e.2)
  | [], _ => rfl
  | e :: tl, hall => by
    have he := hall e (List.mem_cons_self _ _)
    have ih := proofsOf_map_some c tl (fun x hx => hall x (List.mem_cons_of_mem _ hx))
    obtain ⟨p, hp⟩ := Option.isSome_iff_exists.mp he
    unfold proofsOf at ih ⊢
    simp [List.filterMap_cons, hp, ih]

/-- A key that is not deleted still has its value, and a deleted key has none. -/
theorem Get_after_deletes {l : List Entry} (hl : KeysAscending l) (keys : List Bytes)
    {e : Entry} (he : e ∈ l) :
    lookupEntry e.1 (l.filter (fun x => decide (x.1 ∉ keys))) =
      if e.1 ∈ keys then none else some e.2 := by
  split_ifs with hk
  · cases hlk : lookupEntry e.1 (l.filter (fun x => decide (x.1 ∉ keys))) with
    | none => rfl
    | some v =>
      have hs : (lookupEntry e.1 (l.filter (fun x => decide (x.1 ∉ keys)))).isSome = true := by
        rw [hlk]; rfl
      obtain ⟨x, hx, hxe⟩ := (lookupEntry_isSome_iff _ _).mp hs
      have hx2 := (List.mem_filter.mp hx).2
      simp only [decide_eq_true_eq] at hx2
      exact absurd (hxe ▸ hk) hx2
  · have hsub : KeysAscending (l.filter (fun x => decide (x.1 ∉ keys))) :=
      List.Pairwise.sublist (List.filter_sublist l) hl
    exact lookupEntry_of_mem hsub (List.mem_filter.mpr ⟨he, by simpa using hk⟩)

theorem sumKeyLen_nil : sumKeyLen [] = 0 := rfl

theorem sumKeyLen_cons (k : Bytes) (ks : List Bytes) :
    sumKeyLen (k :: ks) = k.length + sumKeyLen ks := by
  simp [sumKeyLen]

theorem wrapInt64_add_wrapInt64 (a b : Int) :
    wrapInt64 (wrapInt64 a + b) = wrapInt64 (a + b) := by
  unfold wrapInt64
  omega

theorem wrapInt64_le_self {x : Int} (hx : 0 ≤ x) : wrapInt64 x ≤ x := by
  unfold wrapInt64
  omega

/-- Before the scan stops, the running total never exceeded the budget (for key
bytes that fit an `int64`). -/
theorem budgetCut_prefix_le (M : Int) :
    ∀ (ks : List Bytes) (t : Int), 0 ≤ t → t + (sumKeyLen ks : Int) < 2 ^ 63 →
      ∀ i, 0 < i → i < (budgetCut M t ks).1 → t + (sumKeyLen (ks.take i) : Int) ≤ M
  | [], _, _, _, i, _, hlt => by simp [budgetCut] at hlt
  | k :: ks, t, ht, hfit, i, hi, hlt => by
    rw [sumKeyLen_cons] at hfit
    push_cast at hfit
    have hw : wrapInt64 (t + (k.length : Int)) = t + (k.length : Int) :=
      wrapInt64_of_range (by omega) (by omega)
    simp only [budgetCut, hw] at hlt
    split_ifs at hlt with htrip
    · omega
    · cases i with
      | zero => omega
      | succ j =>
        rw [List.take_succ_cons, sumKeyLen_cons]
        push_cast
        by_cases hj : j = 0
        · subst hj
          simp only [List.take_zero, sumKeyLen_nil]
          push_cast
          omega
        · have ih := budgetCut_prefix_le M ks (t + (k.length : Int)) (by omega) (by omega) j
            (by omega) (by omega)
          omega

/-- When the scan stops over budget, the keys collected sum to more than the
budget. -/
theorem budgetCut_exceeds (M : Int) :
    ∀ (ks : List Bytes) (S : Int), 0 ≤ S → (budgetCut M (wrapInt64 S) ks).2 = true →
      S + (sumKeyLen (ks.take (budgetCut M (wrapInt64 S) ks).1) : Int) > M
  | [], _, _, h => by simp [budgetCut] at h
  | k :: ks, S, hS, h => by
    have hk : (0 : Int) ≤ (k.length : Int) := Int.natCast_nonneg _
    simp only [budgetCut, wrapInt64_add_wrapInt64] at h ⊢
    split_ifs at h ⊢ with htrip
    · have := wrapInt64_le_self (x := S + (k.length : Int)) (by omega)
      simp only [List.take_succ_cons, List.take_zero, sumKeyLen_cons, sumKeyLen_nil]
      push_cast
      omega
    · have ih := budgetCut_exceeds M ks (S + (k.length : Int)) (by omega) h
      simp only [List.take_succ_cons, sumKeyLen_cons]
      push_cast
      omega

theorem sumKeyLen_keysOf_filter_le (p : Entry → Bool) :
    ∀ l : List Entry, sumKeyLen (keysOf (l.filter p)) ≤ sumKeyLen (keysOf l)
  | [] => by simp
  | e :: tl => by
    have ih := sumKeyLen_keysOf_filter_le p tl
    by_cases he : p e = true
    · simp only [List.filter_cons, he, if_true, keysOf, List.map_cons, sumKeyLen_cons] at ih ⊢
      omega
    · simp only [List.filter_cons, he, keysOf, List.map_cons, sumKeyLen_cons] at ih ⊢
      simp only [Bool.false_eq_true, if_false]
      omega

/-! ## Lemmas on the other buckets -/

/-- Whether bolt accepts a `Put` depends on the key and the value only. -/
theorem Bucket.Put_error_indep {b : Bucket} (b1 : Bucket) {k v : Bytes} {e : DBError}
    (h : b.Put k v = .error e) : b1.Put k v = .error e := by
  unfold Bucket.Put at h ⊢
  split_ifs at h ⊢
  · exact h
  · exact h
  · exact h

theorem Bucket.Put_ok_indep {b : Bucket} (b1 : Bucket) {k v : Bytes} {x : Bucket}
    (h : b.Put k v = .ok x) :
    b1.Put k v = .ok ⟨insertEntry k v b1.entries, keysAscending_insertEntry k v b1.sorted⟩ := by
  rcases Bucket.Put_cases b1 k v with ⟨e, he⟩ | hok
  · rw [Bucket.Put_error_indep b he] at h
    exact Except.noConfusion h
  · exact hok

theorem GetUnderHeightAndDelete_other_buckets {P : Type} (c : ProofCodec P) (w : WaitingDB)
    (h : Nat) :
    (w.GetUnderHeightAndDelete c h).2.db.BKTVoted = w.db.BKTVoted ∧
    (w.GetUnderHeightAndDelete c h).2.db.BKTHeight = w.db.BKTHeight := by
  rcases GetUnderHeightAndDelete_outcome c w h with ⟨herr, _⟩ | hok
  · rw [herr]; exact ⟨rfl, rfl⟩
  · rw [hok]; exact ⟨rfl, rfl⟩

theorem Put_other_buckets {P : Type} (c : ProofCodec P) (w : WaitingDB) (txid : Bytes)
    (item : P) :
    (w.Put c txid item).2.db.BKTVoted = w.db.BKTVoted ∧
    (w.Put c txid item).2.db.BKTHeight = w.db.BKTHeight := by
  rcases Bucket.Put_cases w.db.BKTWaiting txid (c.Serialization item) with ⟨e, he⟩ | hok
  · simp [WaitingDB.Put, he]
  · simp [WaitingDB.Put, hok]

theorem DelIfExist_other_buckets (w : WaitingDB) (txid : Bytes) :
    (w.DelIfExist txid).2.db.BKTVoted = w.db.BKTVoted ∧
    (w.DelIfExist txid).2.db.BKTHeight = w.db.BKTHeight := by
  unfold WaitingDB.DelIfExist
  cases w.db.BKTWaiting.Get txid <;> exact ⟨rfl, rfl⟩

theorem SetHeight_voted (w : WaitingDB) (height : Nat) :
    (w.SetHeight height).2.db.BKTVoted = w.db.BKTVoted := by
  rcases Bucket.Put_cases w.db.BKTHeight KEYHeight (putUint32 height) with ⟨e, he⟩ | hok
  · simp [WaitingDB.SetHeight, he]
  · simp [WaitingDB.SetHeight, hok]

theorem MarkVotedTx_height (w : WaitingDB) (txid : Bytes) :
    (w.MarkVotedTx txid).2.db.BKTHeight = w.db.BKTHeight := by
  rcases Bucket.Put_cases w.db.BKTVoted txid [1] with ⟨e, he⟩ | hok
  · simp [WaitingDB.MarkVotedTx, he]
  · simp [WaitingDB.MarkVotedTx, hok]

/-- A voted key stays voted across `MarkVotedTx` of any key. -/
theorem MarkVotedTx_keeps_voted (w : WaitingDB) (txid k : Bytes)
    (h : w.CheckIfVoted k = true) : (w.MarkVotedTx txid).2.CheckIfVoted k = true := by
  rcases Bucket.Put_cases w.db.BKTVoted txid [1] with ⟨e, he⟩ | hok
  · simpa [WaitingDB.MarkVotedTx, he] using h
  · by_cases hk : k = txid
    · subst hk
      simp [WaitingDB.MarkVotedTx, hok, WaitingDB.CheckIfVoted, Bucket.Get,
        lookupEntry_insertEntry_self]
    · simpa [WaitingDB.MarkVotedTx, hok, WaitingDB.CheckIfVoted, Bucket.Get,
        lookupEntry_insertEntry_ne _ _ hk] using h

/-- No store operation takes a key out of the voted bucket. -/
theorem apply_keeps_voted {P : Type} (c : ProofCodec P) (w : WaitingDB) (op : StoreOp P)
    (k : Bytes) (h : w.CheckIfVoted k = true) : (op.apply c w).CheckIfVoted k = true := by
  cases op with
  | Put txid item =>
    simpa [StoreOp.apply, WaitingDB.CheckIfVoted, (Put_other_buckets c w txid item).1] using h
  | Get txid => exact h
  | DelIfExist txid =>
    simpa [StoreOp.apply, WaitingDB.CheckIfVoted, (DelIfExist_other_buckets w txid).1] using h
  | GetUnderHeightAndDelete height =>
    simpa [StoreOp.apply, WaitingDB.CheckIfVoted,
      (GetUnderHeightAndDelete_other_buckets c w height).1] using h
  | SetHeight height =>
    simpa [StoreOp.apply, WaitingDB.CheckIfVoted, SetHeight_voted w height] using h
  | GetHeight => exact h
  | MarkVotedTx txid => exact MarkVotedTx_keeps_voted w txid k h
  | CheckIfVoted txid => exact h
  | CheckIfWaiting txid => exact h

/-- Decoding the little-endian encoding of a `uint32` gives it back. -/
theorem uint32_putUint32 (v : Nat) (hv : v < 2 ^ 32) : uint32 (putUint32 v) = some v := by
  simp only [putUint32, uint32, Fin.ofNat, Option.some.injEq]
  omega

/-- Only `SetHeight` writes the height bucket. -/
theorem apply_keeps_height {P : Type} (c : ProofCodec P) (w : WaitingDB) (op : StoreOp P)
    (h : op.isSetHeight = false) : (op.apply c w).db.BKTHeight = w.db.BKTHeight := by
  cases op with
  | Put txid item => exact (Put_other_buckets c w txid item).2
  | Get txid => rfl
  | DelIfExist txid => exact (DelIfExist_other_buckets w txid).2
  | GetUnderHeightAndDelete height => exact (GetUnderHeightAndDelete_other_buckets c w height).2
  | SetHeight height => simp [StoreOp.isSetHeight] at h
  | GetHeight => rfl
  | MarkVotedTx txid => exact MarkVotedTx_height w txid
  | CheckIfVoted txid => rfl
  | CheckIfWaiting txid => rfl

theorem applyOps_keeps_height {P : Type} (c : ProofCodec P) :
    ∀ (ops : List (StoreOp P)) (w : WaitingDB), (∀ op ∈ ops, op.isSetHeight = false) →
      (applyOps c w ops).db.BKTHeight = w.db.BKTHeight
  | [], _, _ => rfl
  | op :: rest, w, h => by
    have h1 := apply_keeps_height c w op (h op (List.mem_cons_self _ _))
    have h2 := applyOps_keeps_height c rest (op.apply c w)
      (fun o ho => h o (List.mem_cons_of_mem _ ho))
    simp only [applyOps, List.foldl_cons] at h2 ⊢
    rw [h2, h1]

theorem SetHeight_ok (w : WaitingDB) (height : Nat) :
    w.SetHeight height =
      (.ok (), ⟨⟨w.db.BKTWaiting, w.db.BKTVoted,
        ⟨insertEntry KEYHeight (putUint32 height) w.db.BKTHeight.entries,
          keysAscending_insertEntry _ _ w.db.BKTHeight.sorted⟩⟩, w.maxReadSize⟩) := by
  have h : w.db.BKTHeight.Put KEYHeight (putUint32 height) =
      .ok ⟨insertEntry KEYHeight (putUint32 height) w.db.BKTHeight.entries,
        keysAscending_insertEntry _ _ w.db.BKTHeight.sorted⟩ := by
    unfold Bucket.Put
    simp [KEYHeight, putUint32, MaxKeySize, MaxValueSize]
  simp only [WaitingDB.SetHeight, h]

/-! ## Lemmas on the supervisor loop -/

/-- The three outcomes of a pass on which `BestBlock` and `Rollback` succeed. -/
theorem loopBody_ok_cases (td : Int) (st : LoopState) (s : StoredHeader) :
    (loopBody td st ⟨some s, true⟩).1.timer.isSome = true ∧
    ((st.lasth < s.Height ∧ (loopBody td st ⟨some s, true⟩).2 = [] ∧
        (loopBody td st ⟨some s, true⟩).1.again = false) ∨
      (s.Height ≤ st.lasth ∧ st.again = false ∧
        (loopBody td st ⟨some s, true⟩).2 = [Call.ReSync] ∧
        (loopBody td st ⟨some s, true⟩).1.again = true ∧
        (loopBody td st ⟨some s, true⟩).1.lasth = s.Height) ∨
      (s.Height ≤ st.lasth ∧ st.again = true ∧
        (loopBody td st ⟨some s, true⟩).2 =
          [Call.Rollback (s.Timestamp - sixHours), Call.ReSync] ∧
        (loopBody td st ⟨some s, true⟩).1.again = false)) := by
  by_cases h1 : st.lasth ≥ s.Height
  · cases h2 : st.again
    · simp [loopBody, h1, h2]
    · simp [loopBody, h1, h2]
  · have h3 : st.lasth < s.Height := by omega
    simp [loopBody, h1, h3]

theorem runLoop_cons_armed (td : Int) (st : LoopState) (env : Tick) (rest : List Tick)
    (h : st.timer.isSome = true) :
    runLoop td st (env :: rest) = loopBody td st env :: runLoop td (loopBody td st env).1 rest := by
  obtain ⟨d, hd⟩ := Option.isSome_iff_exists.mp h
  simp [runLoop, hd]

theorem runLoop_okTicks_length (td : Int) :
    ∀ (samples : List StoredHeader) (st : LoopState), st.timer.isSome = true →
      (runLoop td st (okTicks samples)).length = samples.length
  | [], _, _ => by simp [okTicks, runLoop]
  | s :: rest, st, h => by
    have := runLoop_okTicks_length td rest _ (loopBody_ok_cases td st s).1
    simp only [okTicks, List.map_cons] at this ⊢
    rw [runLoop_cons_armed td st _ _ h]
    simp [this]

/-- Each pass starts from the loop variables the pass before it left. -/
theorem runLoop_okTicks_succ (td : Int) :
    ∀ (samples : List StoredHeader) (st : LoopState), st.timer.isSome = true →
      ∀ (i : Nat) (a b : LoopState × List Call) (s : StoredHeader),
        (runLoop td st (okTicks samples))[i]? = some a →
        (runLoop td st (okTicks samples))[i + 1]? = some b →
        samples[i + 1]? = some s →
        b = loopBody td a.1 ⟨some s, true⟩
  | [], _, _, i, a, b, s, ha, _, _ => by simp [okTicks, runLoop] at ha
  | s0 :: rest, st, h, i, a, b, s, ha, hb, hs => by
    have harm := (loopBody_ok_cases td st s0).1
    simp only [okTicks, List.map_cons] at ha hb
    rw [runLoop_cons_armed td st _ _ h] at ha hb
    cases i with
    | zero =>
      simp only [List.getElem?_cons_zero, Option.some.injEq] at ha
      simp only [zero_add, List.getElem?_cons_succ] at hb hs
      cases rest with
      | nil => simp at hs
      | cons s1 rest1 =>
        simp only [List.getElem?_cons_zero, Option.some.injEq] at hs
        simp only [List.map_cons] at hb
        rw [runLoop_cons_armed td _ _ _ harm] at hb
        simp only [List.getElem?_cons_zero, Option.some.injEq] at hb
        rw [← hb, ← ha, hs]
    | succ j =>
      simp only [List.getElem?_cons_succ] at ha hb hs
      exact runLoop_okTicks_succ td rest _ harm j a b s ha hb hs

/-! ## Claims -/

/-- C1. Round trip with overwrite: when the codec satisfies
deserialize(serialize(p)) = p and `Put(txid, p)` succeeds on any store, the
following `Get(txid)` succeeds with `p`, whatever was stored under `txid`
before; and when a second `Put(txid, q)` succeeds, `Get(txid)` then returns
`q`. -/
theorem put_get_round_trip {P : Type} (c : ProofCodec P)
    (hc : ∀ p, c.Deserialization (c.Serialization p) = some p)
    (w : WaitingDB) (txid : Bytes) (p : P)
    (hput : (w.Put c txid p).1 = .ok ()) :
    (w.Put c txid p).2.Get c txid = .ok p ∧
    ∀ q : P, ((w.Put c txid p).2.Put c txid q).1 = .ok () →
      ((w.Put c txid p).2.Put c txid q).2.Get c txid = .ok q := by
  have key : ∀ (w : WaitingDB) (p : P), (w.Put c txid p).1 = .ok () →
      (w.Put c txid p).2.Get c txid = .ok p := by
    intro w p h
    rcases Bucket.Put_cases w.db.BKTWaiting txid (c.Serialization p) with ⟨e, he⟩ | hok
    · simp [WaitingDB.Put, he] at h
    · simp [WaitingDB.Put, hok, WaitingDB.Get, Bucket.Get, lookupEntry_insertEntry_self, hc]
  exact ⟨key w p hput, fun q hq => key _ q hq⟩

/-- Witness of C1 on a store that already holds another value under the key. -/
theorem put_get_round_trip_witness :
    (sampleDB.Put byteCodec [1, 2, 3] (7, [9])).1 = .ok () ∧
    (sampleDB.Put byteCodec [1, 2, 3] (7, [9])).2.Get byteCodec [1, 2, 3] = .ok (7, [9]) ∧
    (((sampleDB.Put byteCodec [1, 2, 3] (7, [9])).2.Put byteCodec [1, 2, 3] (8, [])).2.Get
      byteCodec [1, 2, 3]) = .ok (8, []) :=
  ⟨rfl, (put_get_round_trip byteCodec (fun _ => rfl) sampleDB [1, 2, 3] (7, [9]) rfl).1,
    (put_get_round_trip byteCodec (fun _ => rfl) sampleDB [1, 2, 3] (7, [9]) rfl).2 (8, []) rfl⟩

/-- C2. Height-bounded reclaim is exact within the budget: when every waiting
entry deserializes and the keys of the entries of height at most `h` sum to at
most `maxReadSize`, `GetUnderHeightAndDelete(h)` returns without error exactly
those entries (proofs and txids position by position, in key order), the
waiting bucket afterwards is the old one without them, none of their txids is
stored any more, every entry of greater height is stored with its value
unchanged, and the voted bucket and the height bucket are untouched. -/
theorem reclaim_under_height_exact {P : Type} (c : ProofCodec P) (w : WaitingDB) (h : Nat)
    (hall : allDeserialize c w.db.BKTWaiting.entries)
    (hbudget : (sumKeyLen (keysOf (qualifying c h w.db.BKTWaiting.entries)) : Int) ≤
      w.maxReadSize.val) :
    (w.GetUnderHeightAndDelete c h).1 =
      .ok (proofsOf c (qualifying c h w.db.BKTWaiting.entries),
           keysOf (qualifying c h w.db.BKTWaiting.entries)) ∧
    (proofsOf c (qualifying c h w.db.BKTWaiting.entries)).map some =
      (qualifying c h w.db.BKTWaiting.entries).map (fun e => c.Deserialization e.2) ∧
    (w.GetUnderHeightAndDelete c h).2.db.BKTWaiting.entries =
      w.db.BKTWaiting.entries.filter (fun e => !qualifies c h e) ∧
    (∀ e ∈ w.db.BKTWaiting.entries, qualifies c h e = true →
      (w.GetUnderHeightAndDelete c h).2.db.BKTWaiting.Get e.1 = none) ∧
    (∀ e ∈ w.db.BKTWaiting.entries, qualifies c h e = false →
      (w.GetUnderHeightAndDelete c h).2.db.BKTWaiting.Get e.1 = some e.2) ∧
    (w.GetUnderHeightAndDelete c h).2.db.BKTVoted = w.db.BKTVoted ∧
    (w.GetUnderHeightAndDelete c h).2.db.BKTHeight = w.db.BKTHeight := by
  have hcut := budgetCut_within w.maxReadSize.val w.maxReadSize.property.2
    (keysOf (qualifying c h w.db.BKTWaiting.entries)) 0 (le_refl 0) (by simpa using hbudget)
  have hrec : reclaimed c w h = qualifying c h w.db.BKTWaiting.entries := by
    unfold reclaimed
    rw [hcut]
    simp [keysOf]
  have hqall : allDeserialize c (qualifying c h w.db.BKTWaiting.entries) :=
    fun e he => hall e (List.mem_filter.mp he).1
  rcases GetUnderHeightAndDelete_outcome c w h with ⟨_, e, he, hnone⟩ | hok
  · have := hall e he
    rw [hnone] at this
    exact Bool.noConfusion this
  · rw [hok, hrec]
    have hent : (List.foldl Bucket.Delete w.db.BKTWaiting
        (keysOf (qualifying c h w.db.BKTWaiting.entries))).entries =
        w.db.BKTWaiting.entries.filter (fun e => !qualifies c h e) := by
      rw [foldl_Delete_entries]
      apply List.filter_congr
      intro e he
      have := mem_keysOf_qualifying_iff c h w.db.BKTWaiting.sorted he
      by_cases hq : qualifies c h e = true
      · simp [hq, this.mpr hq]
      · have hn : e.1 ∉ keysOf (qualifying c h w.db.BKTWaiting.entries) :=
          fun hm => hq (this.mp hm)
        simp [hq, hn]
    refine ⟨rfl, proofsOf_map_some c _ hqall, hent, ?_, ?_, rfl, rfl⟩
    · intro e he hq
      have hm := (mem_keysOf_qualifying_iff c h w.db.BKTWaiting.sorted he).mpr hq
      simp only [Bucket.Get, foldl_Delete_entries]
      rw [Get_after_deletes w.db.BKTWaiting.sorted _ he, if_pos hm]
    · intro e he hq
      have hm : e.1 ∉ keysOf (qualifying c h w.db.BKTWaiting.entries) := fun hm => by
        have := (mem_keysOf_qualifying_iff c h w.db.BKTWaiting.sorted he).mp hm
        rw [hq] at this
        exact Bool.noConfusion this
      simp only [Bucket.Get, foldl_Delete_entries]
      rw [Get_after_deletes w.db.BKTWaiting.sorted _ he, if_neg hm]

/-- Witness of C2: with A at height 100 and B at height 200 stored, reclaim at
150 returns exactly A and leaves exactly B, and a following reclaim at 250
returns exactly B. -/
theorem reclaim_under_height_exact_witness :
    (allDeserialize byteCodec storeAB.db.BKTWaiting.entries ∧
      (sumKeyLen (keysOf (qualifying byteCodec 150 storeAB.db.BKTWaiting.entries)) : Int) ≤
        storeAB.maxReadSize.val) ∧
    (storeAB.GetUnderHeightAndDelete byteCodec 150).1 = .ok ([(100, [7])], [[1]]) ∧
    (storeAB.GetUnderHeightAndDelete byteCodec 150).2.db.BKTWaiting.entries =
      [([2], [200, 8])] ∧
    ((storeAB.GetUnderHeightAndDelete byteCodec 150).2.GetUnderHeightAndDelete byteCodec 250).1 =
      .ok ([(200, [8])], [[2]]) :=
  ⟨⟨by decide, by decide⟩,
    (reclaim_under_height_exact byteCodec storeAB 150 (by decide) (by decide)).1,
    (reclaim_under_height_exact byteCodec storeAB 150 (by decide) (by decide)).2.2.1,
    (reclaim_under_height_exact byteCodec
      (storeAB.GetUnderHeightAndDelete byteCodec 150).2 250 (by decide) (by decide)).1⟩

/-- C3, as stated, fails: with a budget of one byte and one qualifying entry
under a two-byte key, the call returns that key, two bytes in all. -/
theorem reclaim_budget_overrun :
    (storeSmallBudget.GetUnderHeightAndDelete byteCodec 0).1 = .ok ([(0, [])], [[1, 2]]) ∧
    ¬ ((sumKeyLen [[1, 2]] : Int) ≤ storeSmallBudget.maxReadSize.val) :=
  ⟨rfl, by decide⟩

/-- C3, amended. The scan collects qualifying entries until the running total
of key lengths exceeds `maxReadSize`, and the entry that carries the total over
the budget is itself returned. Whenever the call returns, the returned txids
are an initial run of the qualifying txids in key order and the returned proofs
are those of the same entries; when the run stops short of all qualifying
entries, or when the qualifying txids sum to more than `maxReadSize`, the
returned txids sum to more than `maxReadSize`; and, for a waiting bucket whose
key bytes fit an `int64`, every non-empty proper initial run of the returned
txids sums to at most `maxReadSize`, so that for `maxReadSize ≥ 0` the returned
txids without the last one sum to at most `maxReadSize`. -/
theorem reclaim_budget_all_but_last {P : Type} (c : ProofCodec P) (w : WaitingDB) (h : Nat)
    (arr : List P) (keys : List Bytes)
    (hres : (w.GetUnderHeightAndDelete c h).1 = .ok (arr, keys))
    (hfit : (sumKeyLen (keysOf w.db.BKTWaiting.entries) : Int) < 2 ^ 63) :
    keys = (keysOf (qualifying c h w.db.BKTWaiting.entries)).take keys.length ∧
    arr = proofsOf c ((qualifying c h w.db.BKTWaiting.entries).take keys.length) ∧
    (keys.length < (keysOf (qualifying c h w.db.BKTWaiting.entries)).length →
      (sumKeyLen keys : Int) > w.maxReadSize.val) ∧
    ((sumKeyLen (keysOf (qualifying c h w.db.BKTWaiting.entries)) : Int) > w.maxReadSize.val →
      (sumKeyLen keys : Int) > w.maxReadSize.val) ∧
    (∀ i, 0 < i → i < keys.length → (sumKeyLen (keys.take i) : Int) ≤ w.maxReadSize.val) ∧
    (0 ≤ w.maxReadSize.val → (sumKeyLen keys.dropLast : Int) ≤ w.maxReadSize.val) := by
  have hlen := budgetCut_le w.maxReadSize.val (keysOf (qualifying c h w.db.BKTWaiting.entries)) 0
  have hboth : arr = proofsOf c ((qualifying c h w.db.BKTWaiting.entries).take
        (budgetCut w.maxReadSize.val 0 (keysOf (qualifying c h w.db.BKTWaiting.entries))).1) ∧
      keys = (keysOf (qualifying c h w.db.BKTWaiting.entries)).take
        (budgetCut w.maxReadSize.val 0 (keysOf (qualifying c h w.db.BKTWaiting.entries))).1 := by
    rcases GetUnderHeightAndDelete_outcome c w h with ⟨herr, _⟩ | hok
    · rw [herr] at hres
      exact Except.noConfusion hres
    · rw [hok] at hres
      have h1 := (Prod.mk.inj (Except.ok.inj hres)).1
      have h2 := (Prod.mk.inj (Except.ok.inj hres)).2
      rw [← h1, ← h2]
      exact ⟨rfl, by simp [reclaimed, keysOf, List.map_take]⟩
  obtain ⟨harr, hkeys⟩ := hboth
  have hn : keys.length =
      (budgetCut w.maxReadSize.val 0 (keysOf (qualifying c h w.db.BKTWaiting.entries))).1 := by
    rw [hkeys, List.length_take]
    omega
  have hle := sumKeyLen_keysOf_filter_le (qualifies c h) w.db.BKTWaiting.entries
  have hshort : keys.length < (keysOf (qualifying c h w.db.BKTWaiting.entries)).length →
      (sumKeyLen keys : Int) > w.maxReadSize.val := by
    intro hlt
    have h0 : wrapInt64 0 = 0 := by decide
    have htrip : (budgetCut w.maxReadSize.val (wrapInt64 0)
        (keysOf (qualifying c h w.db.BKTWaiting.entries))).2 = true := by
      rw [h0]
      by_contra hnt
      have := budgetCut_not_tripped w.maxReadSize.val
        (keysOf (qualifying c h w.db.BKTWaiting.entries)) 0 (by simpa using hnt)
      omega
    have := budgetCut_exceeds w.maxReadSize.val
      (keysOf (qualifying c h w.db.BKTWaiting.entries)) 0 (le_refl 0) htrip
    rw [h0] at this
    rw [hkeys]
    simpa using this
  have hpre : ∀ i, 0 < i → i < keys.length →
      (sumKeyLen (keys.take i) : Int) ≤ w.maxReadSize.val := by
    intro i hi hlt
    have := budgetCut_prefix_le w.maxReadSize.val
      (keysOf (qualifying c h w.db.BKTWaiting.entries)) 0 (le_refl 0)
      (by unfold qualifying; omega) i hi (by omega)
    rw [hkeys, List.take_take, min_eq_left (by omega)]
    simpa using this
  refine ⟨?_, ?_, hshort, ?_, hpre, fun hM => ?_⟩
  · rw [hn]; exact hkeys
  · rw [hn]; exact harr
  · intro hover
    by_cases hlt : keys.length < (keysOf (qualifying c h w.db.BKTWaiting.entries)).length
    · exact hshort hlt
    · have hall : keys = keysOf (qualifying c h w.db.BKTWaiting.entries) := by
        rw [hkeys]
        exact List.take_of_length_le (by omega)
      rw [hall]
      exact hover
  · rw [List.dropLast_eq_take]
    by_cases h1 : keys.length - 1 = 0
    · rw [h1]
      simpa [sumKeyLen_nil] using hM
    · exact hpre _ (by omega) (by omega)

/-- Witness of the amended C3: with a budget of one byte and three one-byte
keys, the scan returns the first two keys, two bytes in all; the first alone is
within the budget. -/
theorem reclaim_budget_all_but_last_witness :
    (storeThree.GetUnderHeightAndDelete byteCodec 0).1 = .ok ([(0, []), (0, [])], [[1], [2]]) ∧
    (sumKeyLen (keysOf storeThree.db.BKTWaiting.entries) : Int) < 2 ^ 63 ∧
    ([[1], [2]] : List Bytes) =
      (keysOf (qualifying byteCodec 0 storeThree.db.BKTWaiting.entries)).take 2 ∧
    (sumKeyLen [[1], [2]] : Int) > storeThree.maxReadSize.val ∧
    (sumKeyLen (List.take 1 [[1], [2]]) : Int) ≤ storeThree.maxReadSize.val ∧
    (sumKeyLen (List.dropLast [[1], [2]]) : Int) ≤ storeThree.maxReadSize.val :=
  ⟨rfl, by decide,
    (reclaim_budget_all_but_last byteCodec storeThree 0 [(0, []), (0, [])] [[1], [2]] rfl
      (by decide)).1,
    (reclaim_budget_all_but_last byteCodec storeThree 0 [(0, []), (0, [])] [[1], [2]] rfl
      (by decide)).2.2.1 (by decide),
    (reclaim_budget_all_but_last byteCodec storeThree 0 [(0, []), (0, [])] [[1], [2]] rfl
      (by decide)).2.2.2.2.1 1 (by decide) (by decide),
    (reclaim_budget_all_but_last byteCodec storeThree 0 [(0, []), (0, [])] [[1], [2]] rfl
      (by decide)).2.2.2.2.2 (by decide)⟩

/-- C4. Oversize is a soft degradation: when every waiting entry deserializes
and the keys of the entries of height at most `h` sum to more than a budget
`maxReadSize ≥ 0` (or, for any budget, at least one entry has height at most
`h`), `GetUnderHeightAndDelete(h)` returns a nil error and the first `k ≥ 1`
qualifying entries in key order, whose keys already sum to more than
`maxReadSize`; exactly the returned txids are deleted, every other entry,
qualifying or not, keeps its value, and the voted bucket and the height bucket
are untouched. -/
theorem reclaim_oversize_soft {P : Type} (c : ProofCodec P) (w : WaitingDB) (h : Nat)
    (hall : allDeserialize c w.db.BKTWaiting.entries)
    (hsome : 0 ≤ w.maxReadSize.val ∨ qualifying c h w.db.BKTWaiting.entries ≠ [])
    (hover : (sumKeyLen (keysOf (qualifying c h w.db.BKTWaiting.entries)) : Int) >
      w.maxReadSize.val) :
    KeysAscending (qualifying c h w.db.BKTWaiting.entries) ∧
    ∃ k, 0 < k ∧ k ≤ (qualifying c h w.db.BKTWaiting.entries).length ∧
      (w.GetUnderHeightAndDelete c h).1 =
        .ok (proofsOf c ((qualifying c h w.db.BKTWaiting.entries).take k),
             keysOf ((qualifying c h w.db.BKTWaiting.entries).take k)) ∧
      (proofsOf c ((qualifying c h w.db.BKTWaiting.entries).take k)).map some =
        ((qualifying c h w.db.BKTWaiting.entries).take k).map
          (fun e => c.Deserialization e.2) ∧
      (sumKeyLen (keysOf ((qualifying c h w.db.BKTWaiting.entries).take k)) : Int) >
        w.maxReadSize.val ∧
      (w.GetUnderHeightAndDelete c h).2.db.BKTWaiting.entries =
        w.db.BKTWaiting.entries.filter (fun e =>
          decide (e.1 ∉ keysOf ((qualifying c h w.db.BKTWaiting.entries).take k))) ∧
      (∀ e ∈ w.db.BKTWaiting.entries,
        (w.GetUnderHeightAndDelete c h).2.db.BKTWaiting.Get e.1 =
          if e.1 ∈ keysOf ((qualifying c h w.db.BKTWaiting.entries).take k) then none
          else some e.2) ∧
      (w.GetUnderHeightAndDelete c h).2.db.BKTVoted = w.db.BKTVoted ∧
      (w.GetUnderHeightAndDelete c h).2.db.BKTHeight = w.db.BKTHeight := by
  refine ⟨List.Pairwise.sublist (List.filter_sublist _) w.db.BKTWaiting.sorted, ?_⟩
  refine ⟨(budgetCut w.maxReadSize.val 0
    (keysOf (qualifying c h w.db.BKTWaiting.entries))).1, ?_, ?_, ?_⟩
  · cases hq : qualifying c h w.db.BKTWaiting.entries with
    | nil =>
      rw [hq] at hover
      rcases hsome with hM | hne
      · simp [keysOf, sumKeyLen_nil] at hover
        omega
      · exact absurd hq hne
    | cons e tl => exact budgetCut_pos _ _ _ _
  · simpa [keysOf] using
      budgetCut_le w.maxReadSize.val (keysOf (qualifying c h w.db.BKTWaiting.entries)) 0
  · rcases GetUnderHeightAndDelete_outcome c w h with ⟨_, e, he, hnone⟩ | hok
    · have := hall e he
      rw [hnone] at this
      exact Bool.noConfusion this
    · rw [hok]
      have htake : allDeserialize c (reclaimed c w h) := fun e he =>
        hall e (List.mem_filter.mp (List.mem_of_mem_take he)).1
      have hex : (sumKeyLen (keysOf (reclaimed c w h)) : Int) > w.maxReadSize.val := by
        by_cases ht : (budgetCut w.maxReadSize.val 0
            (keysOf (qualifying c h w.db.BKTWaiting.entries))).2 = true
        · have h0 : wrapInt64 0 = 0 := by decide
          have := budgetCut_exceeds w.maxReadSize.val
            (keysOf (qualifying c h w.db.BKTWaiting.entries)) 0 (le_refl 0) (by rw [h0]; exact ht)
          rw [h0] at this
          simpa [reclaimed, keysOf, List.map_take] using this
        · have hn := budgetCut_not_tripped w.maxReadSize.val
            (keysOf (qualifying c h w.db.BKTWaiting.entries)) 0 (by simpa using ht)
          have hrec : reclaimed c w h = qualifying c h w.db.BKTWaiting.entries := by
            unfold reclaimed
            rw [hn]
            simp [keysOf]
          rw [hrec]
          exact hover
      refine ⟨rfl, proofsOf_map_some c _ htake, hex, foldl_Delete_entries _ _, ?_, rfl, rfl⟩
      intro e he
      simp only [Bucket.Get, foldl_Delete_entries]
      exact Get_after_deletes w.db.BKTWaiting.sorted _ he

/-- Witness of C4: with a budget of one byte and three qualifying
one-byte keys, the call returns the first two and leaves the third stored. -/
theorem reclaim_oversize_soft_witness :
    (allDeserialize byteCodec storeThree.db.BKTWaiting.entries ∧
      (0 : Int) ≤ storeThree.maxReadSize.val ∧
      (sumKeyLen (keysOf (qualifying byteCodec 0 storeThree.db.BKTWaiting.entries)) : Int) >
        storeThree.maxReadSize.val) ∧
    KeysAscending (qualifying byteCodec 0 storeThree.db.BKTWaiting.entries) ∧
    (storeThree.GetUnderHeightAndDelete byteCodec 0).2.db.BKTWaiting.entries = [([3], [0])] :=
  ⟨⟨by decide, by decide, by decide⟩,
    (reclaim_oversize_soft byteCodec storeThree 0 (by decide) (Or.inl (by decide))
      (by decide)).1, rfl⟩

/-- C5. Dedup idempotence: after a successful `MarkVotedTx(txid)`,
`CheckIfVoted(txid)` is true; a second `MarkVotedTx(txid)` leaves the whole
store (voted, waiting and height buckets) as the first left it; and once
`CheckIfVoted(txid)` is true it is true after any finite sequence of store
operations. -/
theorem mark_voted_idempotent {P : Type} (c : ProofCodec P) (w : WaitingDB) (txid : Bytes) :
    ((w.MarkVotedTx txid).1 = .ok () → (w.MarkVotedTx txid).2.CheckIfVoted txid = true) ∧
    ((w.MarkVotedTx txid).2.MarkVotedTx txid).2.db = (w.MarkVotedTx txid).2.db ∧
    ((w.MarkVotedTx txid).2.MarkVotedTx txid).1 = (w.MarkVotedTx txid).1 ∧
    (∀ ops : List (StoreOp P), w.CheckIfVoted txid = true →
      (applyOps c w ops).CheckIfVoted txid = true) := by
  refine ⟨?_, ?_, ?_, ?_⟩
  · intro h
    rcases Bucket.Put_cases w.db.BKTVoted txid [1] with ⟨e, he⟩ | hok
    · simp [WaitingDB.MarkVotedTx, he] at h
    · simp [WaitingDB.MarkVotedTx, hok, WaitingDB.CheckIfVoted, Bucket.Get,
        lookupEntry_insertEntry_self]
  · rcases Bucket.Put_cases w.db.BKTVoted txid [1] with ⟨e, he⟩ | hok
    · simp [WaitingDB.MarkVotedTx, he]
    · have h2 := Bucket.Put_ok_indep
        ⟨insertEntry txid [1] w.db.BKTVoted.entries,
          keysAscending_insertEntry txid [1] w.db.BKTVoted.sorted⟩ hok
      simp only [WaitingDB.MarkVotedTx, hok, h2, insertEntry_idem]
  · rcases Bucket.Put_cases w.db.BKTVoted txid [1] with ⟨e, he⟩ | hok
    · simp [WaitingDB.MarkVotedTx, he]
    · have h2 := Bucket.Put_ok_indep
        ⟨insertEntry txid [1] w.db.BKTVoted.entries,
          keysAscending_insertEntry txid [1] w.db.BKTVoted.sorted⟩ hok
      simp only [WaitingDB.MarkVotedTx, hok, h2]
  · intro ops
    induction ops generalizing w with
    | nil => exact fun h => h
    | cons op rest ih =>
      intro h
      exact ih (op.apply c w) (apply_keeps_voted c w op txid h)

/-- Witness of C5 on a sample store, with a sequence of calls of every kind
that writes. -/
theorem mark_voted_idempotent_witness :
    (sampleDB.MarkVotedTx [4, 2]).1 = .ok () ∧
    (sampleDB.MarkVotedTx [4, 2]).2.CheckIfVoted [4, 2] = true ∧
    (applyOps byteCodec (sampleDB.MarkVotedTx [4, 2]).2
      [.Put [4, 2] (3, []), .DelIfExist [4, 2], .GetUnderHeightAndDelete 255, .SetHeight 7,
        .MarkVotedTx [5]]).CheckIfVoted [4, 2] = true :=
  ⟨rfl, (mark_voted_idempotent byteCodec sampleDB [4, 2]).1 rfl,
    (mark_voted_idempotent byteCodec (sampleDB.MarkVotedTx [4, 2]).2 [4, 2]).2.2.2 _ rfl⟩

/-- C6. Queue removal: `DelIfExist(txid)` returns true exactly when `txid` was
in the waiting bucket; when it returns false the store is unchanged; when it
returns true, `CheckIfWaiting(txid)` is then false and `Get(txid)` fails with
the not-found error, every other waiting entry keeps its value, and the voted
bucket and the height bucket are unchanged. -/
theorem del_if_exist_removes {P : Type} (c : ProofCodec P) (w : WaitingDB) (txid : Bytes) :
    ((w.DelIfExist txid).1 = true ↔ w.CheckIfWaiting txid = true) ∧
    ((w.DelIfExist txid).1 = false → (w.DelIfExist txid).2.db = w.db) ∧
    ((w.DelIfExist txid).1 = true →
      (w.DelIfExist txid).2.CheckIfWaiting txid = false ∧
      (w.DelIfExist txid).2.Get c txid = .error .notFound ∧
      (∀ k, k ≠ txid →
        (w.DelIfExist txid).2.db.BKTWaiting.Get k = w.db.BKTWaiting.Get k) ∧
      (w.DelIfExist txid).2.db.BKTWaiting.entries =
        w.db.BKTWaiting.entries.filter (fun e => e.1 != txid) ∧
      (w.DelIfExist txid).2.db.BKTVoted = w.db.BKTVoted ∧
      (w.DelIfExist txid).2.db.BKTHeight = w.db.BKTHeight) := by
  cases hg : lookupEntry txid w.db.BKTWaiting.entries with
  | none =>
    simp [WaitingDB.DelIfExist, WaitingDB.CheckIfWaiting, Bucket.Get, hg]
  | some v =>
    simp only [WaitingDB.DelIfExist, WaitingDB.CheckIfWaiting, WaitingDB.Get, Bucket.Get,
      Bucket.Delete, hg, Option.isSome_some, lookupEntry_eraseEntry_self]
    refine ⟨trivial, fun h => Bool.noConfusion h,
      fun _ => ⟨rfl, trivial, ?_, rfl, trivial, trivial⟩⟩
    intro k hk
    exact lookupEntry_eraseEntry_ne _ hk

/-- Witness of C6: the key 1,2,3 is waiting in the sample store, and removing
it makes a following `Get` fail with the not-found error. -/
theorem del_if_exist_removes_witness :
    (sampleDB.DelIfExist [1, 2, 3]).1 = true ∧
    (sampleDB.DelIfExist [1, 2, 3]).2.CheckIfWaiting [1, 2, 3] = false ∧
    (sampleDB.DelIfExist [1, 2, 3]).2.Get byteCodec [1, 2, 3] = .error .notFound ∧
    ((sampleDB.DelIfExist [7]).1 = false ∧ (sampleDB.DelIfExist [7]).2.db = sampleDB.db) :=
  ⟨rfl, ((del_if_exist_removes byteCodec sampleDB [1, 2, 3]).2.2 rfl).1,
    ((del_if_exist_removes byteCodec sampleDB [1, 2, 3]).2.2 rfl).2.1,
    rfl, (del_if_exist_removes byteCodec sampleDB [7]).2.1 rfl⟩

/-- C7. Height cursor: on a store created by `NewWaitingDB` and used without
any `SetHeight`, `GetHeight()` returns 0; for every `h < 2^32`, `SetHeight(h)`
succeeds, stores the 4 little-endian bytes of `h` under `KEYHeight`, decoding
them gives `h`, and `GetHeight()` then returns `h`; the latest `SetHeight`
wins. -/
theorem height_cursor {P : Type} (c : ProofCodec P) (m : GoInt64) (w : WaitingDB) :
    (∀ ops : List (StoreOp P), (∀ op ∈ ops, op.isSetHeight = false) →
      (applyOps c (WaitingDB.NewWaitingDB m) ops).GetHeight = some 0) ∧
    (∀ h, h < 2 ^ 32 →
      (w.SetHeight h).1 = .ok () ∧
      (w.SetHeight h).2.db.BKTHeight.Get KEYHeight = some (putUint32 h) ∧
      (putUint32 h).length = 4 ∧
      uint32 (putUint32 h) = some h ∧
      (w.SetHeight h).2.GetHeight = some h ∧
      ∀ h2, h2 < 2 ^ 32 → ((w.SetHeight h).2.SetHeight h2).2.GetHeight = some h2) := by
  have key : ∀ (w : WaitingDB) (h : Nat), h < 2 ^ 32 → (w.SetHeight h).2.GetHeight = some h := by
    intro w h hh
    rw [SetHeight_ok]
    simp only [WaitingDB.GetHeight, Bucket.Get, lookupEntry_insertEntry_self]
    exact uint32_putUint32 h hh
  refine ⟨?_, ?_⟩
  · intro ops hops
    have := applyOps_keeps_height c ops (WaitingDB.NewWaitingDB m) hops
    simp only [WaitingDB.GetHeight, Bucket.Get, this]
    rfl
  · intro h hh
    refine ⟨by rw [SetHeight_ok], ?_, rfl, uint32_putUint32 h hh, key w h hh,
      fun h2 hh2 => key _ h2 hh2⟩
    rw [SetHeight_ok]
    simp only [Bucket.Get, lookupEntry_insertEntry_self]

/-- Witness of C7 at heights 42 and 4294967295. -/
theorem height_cursor_witness :
    (applyOps byteCodec (WaitingDB.NewWaitingDB ⟨100, by decide⟩)
      [.Put [1] (3, []), .MarkVotedTx [1], .GetUnderHeightAndDelete 9]).GetHeight = some 0 ∧
    (sampleDB.SetHeight 42).2.GetHeight = some 42 ∧
    ((sampleDB.SetHeight 42).2.SetHeight 4294967295).2.GetHeight = some 4294967295 :=
  ⟨(height_cursor byteCodec ⟨100, by decide⟩ sampleDB).1 _ (by decide),
    ((height_cursor byteCodec ⟨100, by decide⟩ sampleDB).2 42 (by decide)).2.2.2.2.1,
    ((height_cursor byteCodec ⟨100, by decide⟩ sampleDB).2 42 (by decide)).2.2.2.2.2
      4294967295 (by decide)⟩

/-- C8. Supervisor transitions on sample sequences, with `BestBlock` and
`Rollback` succeeding: after a first sample of 10, ticks sampling 10 and 10
make the loop call exactly one `ReSync` and no `Rollback` on the first tick and
exactly one `Rollback` followed by exactly one `ReSync` on the second; ticks
sampling 11 and 11 make it call nothing on the first tick and exactly one
`ReSync` and no `Rollback` on the second. -/
theorem supervisor_sample_sequences (minutes ts0 ts1 ts2 : Int) :
    (startSpvClient minutes ⟨10, ts0⟩ [okTick 10 ts1, okTick 10 ts2]).map Prod.snd =
      [[Call.ReSync], [Call.Rollback (ts2 - sixHours), Call.ReSync]] ∧
    (startSpvClient minutes ⟨10, ts0⟩ [okTick 11 ts1, okTick 11 ts2]).map Prod.snd =
      [[], [Call.ReSync]] ∧
    (startSpvClient minutes ⟨10, ts0⟩ [okTick 10 ts1, okTick 10 ts2]).map
        (fun r => (countRollback r.2, countReSync r.2)) = [(0, 1), (1, 1)] ∧
    (startSpvClient minutes ⟨10, ts0⟩ [okTick 11 ts1, okTick 11 ts2]).map
        (fun r => (countRollback r.2, countReSync r.2)) = [(0, 0), (0, 1)] := by
  refine ⟨?_, ?_, ?_, ?_⟩ <;>
    simp [startSpvClient, runLoop, loopBody, okTick, countRollback, countReSync]

/-- C9, as stated, fails: with an interval of 10 minutes, the first stall tick
(sample 10 after 10, no stall before) calls `ReSync` and resets the timer to 5
minutes, not to the full 10. -/
theorem first_stall_timer_not_full :
    startSpvClient 10 ⟨10, 0⟩ [okTick 10 0] =
      [(⟨10, true, some 300000000000⟩, [Call.ReSync])] ∧
    wrapInt64 (10 * 60000000000) = 600000000000 ∧
    (some 300000000000 : Option Int) ≠ some (wrapInt64 (10 * 60000000000)) := by
  decide

/-- C9, amended. On every tick where the sampled height is unchanged from the
previous sample and there was no stall on the preceding tick, the loop calls
`ReSync` (and nothing else), records the stall and resets the timer to half the
configured interval; the full interval is used on a tick whose height
advanced, and a non-advancing tick that re-arms the timer uses the half
interval. -/
theorem first_stall_timer_half (td : Int) (st : LoopState) (sh : StoredHeader) (rb : Bool) :
    (st.again = false → sh.Height = st.lasth →
      loopBody td st ⟨some sh, rb⟩ =
        (⟨sh.Height, true, some (Int.tdiv td 2)⟩, [Call.ReSync])) ∧
    (st.lasth < sh.Height →
      loopBody td st ⟨some sh, rb⟩ = (⟨sh.Height, false, some td⟩, [])) ∧
    (sh.Height ≤ st.lasth →
      (loopBody td st ⟨some sh, rb⟩).1.timer = some (Int.tdiv td 2) ∨
      (loopBody td st ⟨some sh, rb⟩).1.timer = none) := by
  refine ⟨?_, ?_, ?_⟩
  · intro h1 h2
    simp [loopBody, h1, h2]
  · intro h1
    have h2 : ¬ st.lasth ≥ sh.Height := by omega
    simp [loopBody, h2]
  · intro h1
    have h2 : st.lasth ≥ sh.Height := h1
    cases h3 : st.again <;> cases rb <;> simp [loopBody, h2, h3]

/-- Witness of the amended C9 with an interval of 10 minutes. -/
theorem first_stall_timer_half_witness :
    loopBody 600000000000 ⟨10, false, some 600000000000⟩ ⟨some ⟨10, 0⟩, true⟩ =
      (⟨10, true, some 300000000000⟩, [Call.ReSync]) ∧
    loopBody 600000000000 ⟨10, false, some 600000000000⟩ ⟨some ⟨11, 0⟩, true⟩ =
      (⟨11, false, some 600000000000⟩, []) :=
  ⟨(first_stall_timer_half 600000000000 ⟨10, false, some 600000000000⟩ ⟨10, 0⟩ true).1 rfl rfl,
    (first_stall_timer_half 600000000000 ⟨10, false, some 600000000000⟩ ⟨11, 0⟩ true).2.1
      (by decide)⟩

/-- C10. At most one rollback per stall episode: for every sequence of samples
with `BestBlock` and `Rollback` succeeding, every tick is taken; the first tick
never calls `Rollback`; a tick that called `Rollback` leaves `again` false and
the next tick does not call `Rollback` and, when it is non-advancing, calls
only `ReSync`; and a tick that calls `Rollback` comes right after a tick that
called `ReSync` alone, which only a non-advancing tick does. -/
theorem rollback_once_per_episode (minutes : Int) (sh0 : StoredHeader)
    (samples : List StoredHeader) :
    (startSpvClient minutes sh0 (okTicks samples)).length = samples.length ∧
    (∀ a, (startSpvClient minutes sh0 (okTicks samples))[0]? = some a →
      calledRollback a.2 = false) ∧
    (∀ i a b s,
      (startSpvClient minutes sh0 (okTicks samples))[i]? = some a →
      (startSpvClient minutes sh0 (okTicks samples))[i + 1]? = some b →
      samples[i + 1]? = some s →
      (calledRollback a.2 = true →
        calledRollback b.2 = false ∧ a.1.again = false ∧
        (s.Height ≤ a.1.lasth → b.2 = [Call.ReSync])) ∧
      (calledRollback b.2 = true → a.2 = [Call.ReSync] ∧ s.Height ≤ a.1.lasth)) ∧
    (∀ (td : Int) (st : LoopState) (env : Tick), (loopBody td st env).2 = [Call.ReSync] →
      ∃ sh, env.BestBlock = some sh ∧ sh.Height ≤ st.lasth) := by
  have harm : (LoopState.mk sh0.Height false
      (some (wrapInt64 (minutes * 60000000000)))).timer.isSome = true := rfl
  refine ⟨runLoop_okTicks_length _ samples _ harm, ?_, ?_, ?_⟩
  · intro a ha
    cases samples with
    | nil => simp [startSpvClient, okTicks, runLoop] at ha
    | cons s rest =>
      simp only [startSpvClient, okTicks, List.map_cons] at ha
      rw [runLoop_cons_armed _ _ _ _ harm] at ha
      simp only [List.getElem?_cons_zero, Option.some.injEq] at ha
      rw [← ha]
      by_cases h1 : sh0.Height ≥ s.Height <;> simp [loopBody, h1, calledRollback]
  · intro i a b s ha hb hs
    have hstep := runLoop_okTicks_succ _ samples _ harm i a b s ha hb hs
    have ha2 : ∃ st0 sa, a = loopBody (wrapInt64 (minutes * 60000000000)) st0 ⟨some sa, true⟩ := by
      cases i with
      | zero =>
        cases samples with
        | nil => simp [startSpvClient, okTicks, runLoop] at ha
        | cons s1 rest =>
          simp only [startSpvClient, okTicks, List.map_cons] at ha
          rw [runLoop_cons_armed _ _ _ _ harm] at ha
          simp only [List.getElem?_cons_zero, Option.some.injEq] at ha
          exact ⟨_, _, ha.symm⟩
      | succ j =>
        have hlen := runLoop_okTicks_length (wrapInt64 (minutes * 60000000000)) samples _ harm
        have hj : j < (startSpvClient minutes sh0 (okTicks samples)).length := by
          have := (List.getElem?_eq_some.mp ha).1
          omega
        obtain ⟨a0, ha0⟩ : ∃ a0, (startSpvClient minutes sh0 (okTicks samples))[j]? = some a0 :=
          ⟨_, List.getElem?_eq_getElem hj⟩
        have hj1 : j + 1 < samples.length := by
          have := (List.getElem?_eq_some.mp ha).1
          simp only [startSpvClient] at this
          omega
        exact ⟨_, _, runLoop_okTicks_succ _ samples _ harm j a0 a _ ha0 ha
          (List.getElem?_eq_getElem hj1)⟩
    obtain ⟨st0, sa, hsa⟩ := ha2
    have ca := loopBody_ok_cases (wrapInt64 (minutes * 60000000000)) st0 sa
    have cb := loopBody_ok_cases (wrapInt64 (minutes * 60000000000)) a.1 s
    rw [← hsa] at ca
    rw [← hstep] at cb
    rcases ca.2 with ⟨_, c2, c3⟩ | ⟨_, _, c2, c3, _⟩ | ⟨_, _, c2, c3⟩ <;>
      rcases cb.2 with ⟨d1, d2, _⟩ | ⟨d1, d0, d2, _⟩ | ⟨d1, d0, d2, _⟩ <;>
      simp_all [calledRollback]
  · intro td st env h
    cases hb : env.BestBlock with
    | none => simp [loopBody, hb] at h
    | some sh =>
      refine ⟨sh, rfl, ?_⟩
      by_contra hlt
      have h2 : ¬ st.lasth ≥ sh.Height := hlt
      simp [loopBody, hb, h2] at h

/-- Witness of C10 on a stall of three ticks followed by an advance: the calls
are `ReSync`, then `Rollback` and `ReSync`, then `ReSync` alone, then none. -/
theorem rollback_once_per_episode_witness :
    (startSpvClient 10 ⟨10, 0⟩ (okTicks stallSamples)).map Prod.snd =
      [[Call.ReSync], [Call.Rollback (2 - sixHours), Call.ReSync], [Call.ReSync], []] ∧
    (calledRollback [Call.Rollback (2 - sixHours), Call.ReSync] = true ∧
      calledRollback [Call.ReSync] = false ∧
      (([Call.ReSync] : List Call) = [Call.ReSync] ∧ 10 ≤ 10)) :=
  ⟨by decide, rfl,
    (((rollback_once_per_episode 10 ⟨10, 0⟩ stallSamples).2.2.1 1
      (⟨10, false, some 300000000000⟩, [Call.Rollback (2 - sixHours), Call.ReSync])
      (⟨10, true, some 300000000000⟩, [Call.ReSync]) ⟨10, 3⟩ (by decide) (by decide)
      (by decide)).1 rfl).1,
    ((rollback_once_per_episode 10 ⟨10, 0⟩ stallSamples).2.2.1 0
      (⟨10, true, some 300000000000⟩, [Call.ReSync])
      (⟨10, false, some 300000000000⟩, [Call.Rollback (2 - sixHours), Call.ReSync])
      ⟨10, 2⟩ (by decide) (by decide) (by decide)).2 rfl⟩

/-- C11, as stated, fails: on a second consecutive stall taken two hours
after the timestamp of the best header, `Rollback` gets that timestamp minus six
hours, not the time of the tick minus six hours; and when `Rollback` returns an
error, `ReSync` is not called. -/
theorem rollback_cutoff_not_tick_time :
    (loopBody 600000000000 ⟨10, true, some 300000000000⟩ lateTick.env).2 =
      [Call.Rollback (0 - sixHours), Call.ReSync] ∧
    Call.Rollback (0 - sixHours) ≠ Call.Rollback (lateTick.now - sixHours) ∧
    (loopBody 600000000000 ⟨10, true, some 300000000000⟩ ⟨some ⟨10, 0⟩, false⟩).2 =
      [Call.Rollback (0 - sixHours)] := by
  decide

/-- C11, amended. On every tick that is the second consecutive stall (`again`
was set by the stall tick before and the sample has not advanced), the loop
calls `Rollback` with the timestamp of the best block header sampled on that
tick minus six hours, and when `Rollback` succeeds it then calls `ReSync` and
nothing else; when `Rollback` fails the pass ends with that call. -/
theorem rollback_cutoff_header_time (td : Int) (st : LoopState) (sh : StoredHeader)
    (rb : Bool) (hagain : st.again = true) (hstall : sh.Height ≤ st.lasth) :
    (loopBody td st ⟨some sh, rb⟩).2 =
      (if rb then [Call.Rollback (sh.Timestamp - sixHours), Call.ReSync]
       else [Call.Rollback (sh.Timestamp - sixHours)]) ∧
    sixHours = 6 * 60 * 60 * 1000000000 := by
  have h2 : st.lasth ≥ sh.Height := hstall
  refine ⟨?_, by decide⟩
  cases rb <;> simp [loopBody, h2, hagain]

/-- Witness of the amended C11: after a first sample of 10, the tick sampling
10 sets `again`, and the next tick sampling 10 with header timestamp 2 calls
`Rollback` with 2 minus six hours and then `ReSync`. -/
theorem rollback_cutoff_header_time_witness :
    (startSpvClient 10 ⟨10, 0⟩ [okTick 10 1]).map Prod.fst =
      [⟨10, true, some 300000000000⟩] ∧
    (loopBody 600000000000 ⟨10, true, some 300000000000⟩ ⟨some ⟨10, 2⟩, true⟩).2 =
      [Call.Rollback (2 - sixHours), Call.ReSync] :=
  ⟨by decide,
    (rollback_cutoff_header_time 600000000000 ⟨10, true, some 300000000000⟩ ⟨10, 2⟩ true rfl
      (by decide)).1⟩

/-- C12, the code on a failed tick. When `BestBlock` returns an error, or
`Rollback` does on a second consecutive stall, the pass ends at its `continue`
without `timer.Reset`: the timer stays unarmed and no later pass is taken,
whatever the wallet would answer afterwards. With a first sample of 10 and a
failed `BestBlock` on the first tick, the ticks that would sample 11 and 12
are never taken. -/
theorem failed_tick_never_rearms (td d : Int) (lasth k : Nat) (again rb : Bool)
    (sh : StoredHeader) (rest : List Tick) :
    runLoop td ⟨lasth, again, some d⟩ (⟨none, rb⟩ :: rest) = [(⟨lasth, again, none⟩, [])] ∧
    runLoop td ⟨sh.Height + k, true, some d⟩ (⟨some sh, false⟩ :: rest) =
      [(⟨sh.Height + k, true, none⟩, [Call.Rollback (sh.Timestamp - sixHours)])] ∧
    startSpvClient 10 ⟨10, 0⟩ [⟨none, true⟩, okTick 11 1, okTick 12 2] =
      [(⟨10, false, none⟩, [])] ∧
    startSpvClient 10 ⟨10, 0⟩ [okTick 10 1, ⟨some ⟨10, 2⟩, false⟩, okTick 11 3] =
      [(⟨10, true, some 300000000000⟩, [Call.ReSync]),
       (⟨10, true, none⟩, [Call.Rollback (2 - sixHours)])] := by
  refine ⟨?_, ?_, by decide, by decide⟩
  · cases rest <;> simp [runLoop, loopBody]
  · cases rest <;> simp [runLoop, loopBody]

/-- C13, as stated, fails when `Rollback` returns an error: on a second
consecutive stall with previous sample 10 and new sample 9, the pass calls
`Rollback` only, and the previous-sample value stays 10. -/
theorem failed_rollback_keeps_lasth :
    loopBody 600000000000 ⟨10, true, some 300000000000⟩ ⟨some ⟨9, 0⟩, false⟩ =
      (⟨10, true, none⟩, [Call.Rollback (0 - sixHours)]) ∧
    (⟨10, true, none⟩ : LoopState).lasth ≠ 9 ∧
    Call.ReSync ∉ [Call.Rollback (0 - sixHours)] := by
  decide

/-- C13, amended. A height decrease counts as a stall: on every tick on which
`BestBlock` succeeds, the stall branch (some call is made) is taken exactly
when the new sample is at most the previous one, and the healthy branch (no
call, `again` cleared, timer reset to the full interval, previous sample
replaced) exactly when it is strictly greater; in the stall branch, when
`Rollback` is not called or succeeds, the calls are `ReSync`, after `Rollback`
if `again` was set, and the previous sample is replaced by the new one. -/
theorem decrease_counts_as_stall (td : Int) (st : LoopState) (sh : StoredHeader) (rb : Bool) :
    ((loopBody td st ⟨some sh, rb⟩).2 ≠ [] ↔ sh.Height ≤ st.lasth) ∧
    (loopBody td st ⟨some sh, rb⟩ = (⟨sh.Height, false, some td⟩, []) ↔
      st.lasth < sh.Height) ∧
    (sh.Height ≤ st.lasth → (st.again = false ∨ rb = true) →
      (loopBody td st ⟨some sh, rb⟩).2 =
        (if st.again then [Call.Rollback (sh.Timestamp - sixHours), Call.ReSync]
         else [Call.ReSync]) ∧
      (loopBody td st ⟨some sh, rb⟩).1.lasth = sh.Height) := by
  by_cases h1 : st.lasth ≥ sh.Height
  · have h2 : ¬ st.lasth < sh.Height := by omega
    have h3 : sh.Height ≤ st.lasth := h1
    cases ha : st.again <;> cases rb <;> simp [loopBody, h1, h2, h3, ha]
  · have h2 : st.lasth < sh.Height := by omega
    have h3 : ¬ sh.Height ≤ st.lasth := by omega
    simp [loopBody, h1, h2, h3]

/-- Witness of the amended C13: after a stall at 10 and its rollback the tip
drops to 8, which is a stall and makes 8 the previous sample, so the next
sample 9 is an advance. -/
theorem decrease_counts_as_stall_witness :
    (startSpvClient 10 ⟨10, 0⟩ (okTicks dropSamples)).map Prod.snd =
      [[Call.ReSync], [Call.Rollback (2 - sixHours), Call.ReSync], [Call.ReSync], []] ∧
    ((loopBody 600000000000 ⟨10, false, some 300000000000⟩ ⟨some ⟨8, 3⟩, true⟩).2 =
        [Call.ReSync] ∧
      (loopBody 600000000000 ⟨10, false, some 300000000000⟩ ⟨some ⟨8, 3⟩, true⟩).1.lasth = 8) ∧
    loopBody 600000000000 ⟨8, true, some 300000000000⟩ ⟨some ⟨9, 4⟩, true⟩ =
      (⟨9, false, some 600000000000⟩, []) :=
  ⟨by decide,
    (decrease_counts_as_stall 600000000000 ⟨10, false, some 300000000000⟩ ⟨8, 3⟩ true).2.2
      (by decide) (Or.inl rfl),
    (decrease_counts_as_stall 600000000000 ⟨8, true, some 300000000000⟩ ⟨9, 4⟩ true).2.1.mpr
      (by decide)⟩

end Spvwallet
